import Mathlib

/-!
Shallow embedding of `gitlab_sprint_helper.py` (class `GitLabSprintHelper`).

Strings are modelled as `List Char`; Python floats arising from division are
modelled as `ℚ`; `datetime.strptime` with the fixed format
`"%Y-%m-%dT%H:%M:%S.%fZ"` is modelled by an explicit positional parser
returning an `Option` (Python raises `ValueError` on malformed input);
remote (network) calls of the `python-gitlab` client are modelled as an
explicit record of `Except`-returning functions, so that a raised exception
from a fetch is an `Except.error` that propagates through the computation.
Python's `re` matchers used by the code are hand-translated to executable
character-list matchers; `\w` and `\s` are modelled at their ASCII meaning.
-/

namespace GitLabSprintHelper

/-- Python whitespace for `\s` and `str.strip` (ASCII part). -/
def isPySpace (c : Char) : Bool :=
  c = ' ' || c = '\t' || c = '\n' || c = '\r' || c = '\x0b' || c = '\x0c'

/-- Python `str.strip()`: drop leading and trailing whitespace. -/
def stripL (l : List Char) : List Char :=
  ((l.dropWhile isPySpace).reverse.dropWhile isPySpace).reverse

/-- Lowercasing a string, for the `re.IGNORECASE` matchers. -/
def lowerL (l : List Char) : List Char := l.map Char.toLower

/-- A character of the regex class `[\w-]` (ASCII reading of `\w`). -/
def wordDash (c : Char) : Bool := c.isAlphanum || c = '_' || c = '-'

/-- Substring test: Python's `pat in s`. -/
def containsSub (pat : List Char) : List Char → Bool
  | [] => pat.isEmpty
  | c :: tl => pat.isPrefixOf (c :: tl) || containsSub pat tl

/-- Eat an exact literal from the front of a string; `none` if it is absent. -/
def eatLit : List Char → List Char → Option (List Char)
  | [], s => some s
  | _ :: _, [] => none
  | p :: ps, c :: cs => if p = c then eatLit ps cs else none

/-- Digits of a decimal numeral folded to a `Nat`. -/
def digitsToNat (l : List Char) : Nat :=
  l.foldl (fun n c => 10 * n + (c.toNat - 48)) 0

/-- A parsed `datetime` value (the components `strptime` produces). -/
structure DT where
  year : Nat
  month : Nat
  day : Nat
  hour : Nat
  minute : Nat
  second : Nat
  usec : Nat
deriving DecidableEq

/-- Days from 1970-01-01 of a civil date (Gregorian, proleptic); the
standard days-from-civil computation.  All intermediate quantities are
nonnegative for `year ≥ 1` (which `parseDT` guarantees), so `Int`
truncated division agrees with floor division here. -/
def daysFromCivil (y m d : Nat) : Int :=
  let y' : Int := (y : Int) - (if m ≤ 2 then 1 else 0)
  let era : Int := y' / 400
  let yoe : Int := y' - era * 400
  let mp : Int := (m : Int) + (if 2 < m then -3 else 9)
  let doy : Int := (153 * mp + 2) / 5 + (d : Int) - 1
  let doe : Int := yoe * 365 + yoe / 4 - yoe / 100 + doy
  era * 146097 + doe - 719468

/-- Microseconds from the epoch of a parsed datetime; strictly monotone in
the lexicographic component order on valid datetimes, hence comparing these
values models comparing Python `datetime` objects. -/
def toMicros (t : DT) : Int :=
  (daysFromCivil t.year t.month t.day) * 86400000000
    + ((t.hour * 3600 + t.minute * 60 + t.second) * 1000000 + t.usec : Nat)

/-- Python `datetime.strptime(s, "%Y-%m-%dT%H:%M:%S.%fZ")`: positional parse of the
fixed timestamp format used throughout the file.  Returns `none` where
Python raises `ValueError` (wrong shape, trailing input, or out-of-range
components; day-in-month length validation is elided). -/
def parseDT (s : List Char) : Option DT :=
  let ys := s.takeWhile Char.isDigit
  let r1 := s.dropWhile Char.isDigit
  if ys.isEmpty || 4 < ys.length then none else
  match r1 with
  | '-' :: r2 =>
    let ms := r2.takeWhile Char.isDigit
    let r3 := r2.dropWhile Char.isDigit
    if ms.isEmpty then none else
    match r3 with
    | '-' :: r4 =>
      let ds := r4.takeWhile Char.isDigit
      let r5 := r4.dropWhile Char.isDigit
      if ds.isEmpty then none else
      match r5 with
      | 'T' :: r6 =>
        let hs := r6.takeWhile Char.isDigit
        let r7 := r6.dropWhile Char.isDigit
        if hs.isEmpty then none else
        match r7 with
        | ':' :: r8 =>
          let mins := r8.takeWhile Char.isDigit
          let r9 := r8.dropWhile Char.isDigit
          if mins.isEmpty then none else
          match r9 with
          | ':' :: r10 =>
            let ss := r10.takeWhile Char.isDigit
            let r11 := r10.dropWhile Char.isDigit
            if ss.isEmpty then none else
            match r11 with
            | '.' :: r12 =>
              let fs := r12.takeWhile Char.isDigit
              let r13 := r12.dropWhile Char.isDigit
              if fs.isEmpty || 6 < fs.length then none else
              match r13 with
              | ['Z'] =>
                let y := digitsToNat ys
                let mo := digitsToNat ms
                let d := digitsToNat ds
                let h := digitsToNat hs
                let mi := digitsToNat mins
                let sec := digitsToNat ss
                if 1 ≤ y ∧ 1 ≤ mo ∧ mo ≤ 12 ∧ 1 ≤ d ∧ d ≤ 31 ∧ h ≤ 23 ∧
                    mi ≤ 59 ∧ sec ≤ 59 then
                  some ⟨y, mo, d, h, mi, sec,
                        digitsToNat fs * 10 ^ (6 - fs.length)⟩
                else none
              | _ => none
            | _ => none
          | _ => none
        | _ => none
      | _ => none
    | _ => none
  | _ => none

/-- An `epic.notes.list(...)` item: an epic comment with author, body,
creation timestamp (the fields the code reads). -/
structure Author where
  username : List Char
deriving DecidableEq

structure Comment where
  author : Author
  body : List Char
  created_at : List Char
deriving DecidableEq

/-- A merge request (the fields the code reads). -/
structure Mr where
  state : List Char
  created_at : List Char
  merged_at : List Char
  author : Author
deriving DecidableEq

/-- One note of a merge-request discussion (`discussion["notes"]` entry). -/
structure Note where
  system : Bool
  author_id : Nat
deriving DecidableEq

/-- A group epic (the fields the code reads); epics double as sprints. -/
structure Epic where
  title : List Char
  start_date : List Char
  end_date : List Char
deriving DecidableEq

/-! Section: the regex matchers of `split_sprint_comments` and `list_all_sprints`

`goal_pattern = re.compile(r"^\s*#+\s*.*goal", re.IGNORECASE)` used via
`.match(body)`: after optional whitespace, one or more `#`, the pattern
`\s*.*goal` holds of the remainder `r` exactly when, after the maximal
whitespace run of `r`, the keyword occurs (case-insensitively) within the
first line (`.` does not match a newline, while `\s` does). -/

/-- Shared shape of the goal/reflection heading matchers: `re.match` of
`^\s*#+\s*.*<kw>` (IGNORECASE) against the raw body. -/
def keywordHeading (kw : List Char) (body : List Char) : Bool :=
  match body.dropWhile isPySpace with
  | '#' :: tl =>
    let r := tl.dropWhile (· = '#')
    containsSub kw (lowerL ((r.dropWhile isPySpace).takeWhile (· ≠ '\n')))
  | _ => false

/-- The check `goal_pattern.match(comment.body)`. -/
def goalMatch (body : List Char) : Bool := keywordHeading "goal".toList body

/-- The check `reflection_pattern.match(comment.body)`. -/
def reflectionMatch (body : List Char) : Bool :=
  keywordHeading "reflection".toList body

/-- The check `review_splitter_pattern.match(comment.body.strip())` with
`review_splitter_pattern = re.compile(r"^\s*#\s*Review\s*$", re.IGNORECASE)`:
a single `#`, optional whitespace, the word `Review` (any case), and then
only whitespace to the end (`\s*$` on a trailing-stripped string). -/
def splitterMatch (stripped : List Char) : Bool :=
  match stripped.dropWhile isPySpace with
  | '#' :: tl =>
    let r := tl.dropWhile isPySpace
    "review".toList.isPrefixOf (lowerL r) && (r.drop 6).all isPySpace
  | _ => false

/-- Embeds `re.match` of `sprint_pattern = re.compile(r"Sprint \d+/\d+: .+")`:
a prefix match anchored at the start of the title — literal `Sprint `,
digits, `/`, digits, `: `, then at least one non-newline character
(`.` does not match `\n`; as a prefix match, nothing beyond the greedy
`.+` is constrained). -/
def sprintTitleMatch (t : List Char) : Bool :=
  match eatLit "Sprint ".toList t with
  | none => false
  | some r1 =>
    if (r1.takeWhile Char.isDigit).isEmpty then false else
    match eatLit "/".toList (r1.dropWhile Char.isDigit) with
    | none => false
    | some r3 =>
      if (r3.takeWhile Char.isDigit).isEmpty then false else
      match eatLit ": ".toList (r3.dropWhile Char.isDigit) with
      | none => false
      | some [] => false
      | some (c :: _) => c ≠ '\n' 

/-! Section: the comment classifier. -/

/-- Sort key of `sorted(comments, key=lambda x: datetime.strptime(...))`:
the parsed timestamp in microseconds.  The default `0` is never reached on
inputs where every timestamp parses, which `split_sprint_comments` checks
(Python raises before producing any output otherwise). -/
def cmtKey (c : Comment) : Int := ((parseDT c.created_at).map toMicros).getD 0

def cmtLe (a b : Comment) : Prop := cmtKey a ≤ cmtKey b

instance : DecidableRel cmtLe := fun a b =>
  inferInstanceAs (Decidable (cmtKey a ≤ cmtKey b))

instance : IsTotal Comment cmtLe := ⟨fun a b => le_total (cmtKey a) (cmtKey b)⟩

instance : IsTrans Comment cmtLe := ⟨fun _ _ _ h h' => le_trans h h'⟩

/-- All creation timestamps parse (otherwise Python's `sorted` raises while
computing the keys). -/
def checkKeys (comments : List Comment) : Bool :=
  comments.all fun c => (parseDT c.created_at).isSome

/-- The scan loop of `split_sprint_comments`: walk the sorted comments with
the `review_section_started` flag, returning the
`(planning_comments, review_comments)` pair. -/
def splitGo : List Comment → Bool → List Comment × List Comment
  | [], _ => ([], [])
  | c :: cs, started =>
    if splitterMatch (stripL c.body) then splitGo cs true
    else if started && reflectionMatch c.body then
      let pr := splitGo cs started
      (pr.1, c :: pr.2)
    else if goalMatch c.body then
      let pr := splitGo cs started
      (c :: pr.1, pr.2)
    else splitGo cs started

/-- Embeds `split_sprint_comments`: stable sort by parsed creation time, then the
classification scan; `none` models the `ValueError` raised by `strptime`
on a malformed timestamp. -/
def split_sprint_comments (comments : List Comment) :
    Option (List Comment × List Comment) :=
  if checkKeys comments then
    some (splitGo (List.insertionSort cmtLe comments) false)
  else none

/-! Section: pure metric calculators. -/

/-- Embeds `calculate_mr_rate`. -/
def calculate_mr_rate (planning_comments : List Comment)
    (mrs_in_sprint : List Mr) : ℚ :=
  let team_members := (planning_comments.map fun c => c.author.username).toFinset
  if team_members.card = 0 then 0
  else (mrs_in_sprint.length : ℚ) / (team_members.card : ℚ)

/-- Embeds `calculate_mr_completion_rate`. -/
def calculate_mr_completion_rate (mrs_in_sprint : List Mr) : ℚ :=
  let merged_mrs := mrs_in_sprint.filter fun mr => mr.state = "merged".toList
  if mrs_in_sprint.isEmpty then 0
  else (merged_mrs.length : ℚ) / (mrs_in_sprint.length : ℚ)

/-- Computes `(merged_at - created_at).total_seconds()` for one merge request,
`none` when a timestamp does not parse. -/
def mrMergeSeconds (mr : Mr) : Option ℚ :=
  match parseDT mr.created_at, parseDT mr.merged_at with
  | some c, some m => some (((toMicros m - toMicros c : Int) : ℚ) / 1000000)
  | _, _ => none

/-- The accumulation loop of `calculate_average_time_to_merge` over the
merged merge requests, as the list of per-MR second counts. -/
def seqSecs : List Mr → Option (List ℚ)
  | [] => some []
  | mr :: tl =>
    match mrMergeSeconds mr with
    | none => none
    | some s =>
      match seqSecs tl with
      | none => none
      | some rest => some (s :: rest)

/-- Embeds `calculate_average_time_to_merge` (hours); `none` models a `ValueError`
from `strptime` on a merged MR with a malformed timestamp. -/
def calculate_average_time_to_merge (mrs_in_sprint : List Mr) : Option ℚ :=
  let merged_mrs := mrs_in_sprint.filter fun mr => mr.state = "merged".toList
  match seqSecs merged_mrs with
  | none => none
  | some secs =>
    if merged_mrs.isEmpty then some 0
    else some (secs.sum / (merged_mrs.length : ℚ) / 3600)

/-! Section: the embedding of the private issue-extraction method

`issue_url_pattern` is the compiled regex (written here with spaces around
each slash to avoid comment markers):
`https: / / gitlab.com / ([\w-]+ / [\w-]+ / [\w-]+ / - / (issues|work_items) / (\d+))`
used via `.findall(comment.body)`.  The unescaped `.` in `gitlab.com` is a
single-character wildcard (anything but a newline).  Each `[\w-]+` run is
followed by a literal slash, which the class cannot match, so maximal-munch
scanning coincides with the backtracking semantics; likewise `(\d+)` is at
the end of the pattern and the two alternation branches differ at their
first character. -/

/-- One `[\\w-]+` segment followed by a literal slash. -/
def grabSeg (s : List Char) : Option (List Char × List Char) :=
  if (s.takeWhile wordDash).isEmpty then none
  else
    match eatLit "/".toList (s.dropWhile wordDash) with
    | some rest => some (s.takeWhile wordDash, rest)
    | none => none

/-- The alternation `(issues|work_items)` followed by a slash; the branches
are tried in the regex's order. -/
def eatKind (s : List Char) : Option (List Char × List Char) :=
  match eatLit "issues/".toList s with
  | some r => some ("issues".toList, r)
  | none =>
    match eatLit "work_items/".toList s with
    | some r => some ("work_items".toList, r)
    | none => none

/-- Try the issue-URL pattern at the start of `s`; on success return the
triple of regex groups `(full path group, issues|work_items, id)` and the
remainder of the string after the match. -/
def matchIssueAt (s : List Char) :
    Option ((List Char × List Char × List Char) × List Char) :=
  match eatLit "https://gitlab".toList s with
  | none => none
  | some [] => none
  | some (w :: s2) =>
    if w = '\n' then none else
    match eatLit "com/".toList s2 with
    | none => none
    | some s3 =>
      match grabSeg s3 with
      | none => none
      | some (a, s4) =>
        match grabSeg s4 with
        | none => none
        | some (b, s5) =>
          if (s5.takeWhile wordDash).isEmpty then none else
          match eatLit "/-/".toList (s5.dropWhile wordDash) with
          | none => none
          | some s6 =>
            match eatKind s6 with
            | none => none
            | some (kind, s7) =>
              if (s7.takeWhile Char.isDigit).isEmpty then none else
              some ((a ++ '/' :: b ++ '/' :: s5.takeWhile wordDash
                      ++ "/-/".toList ++ kind ++ '/' :: s7.takeWhile Char.isDigit,
                     kind, s7.takeWhile Char.isDigit),
                    s7.dropWhile Char.isDigit)

theorem eatLit_length {p s r : List Char} (h : eatLit p s = some r) :
    r.length + p.length = s.length := by
  induction p generalizing s with
  | nil => simp [eatLit] at h; simp [h]
  | cons x xs ih =>
    cases s with
    | nil => simp [eatLit] at h
    | cons c cs =>
      simp only [eatLit] at h
      split at h
      · have := ih h
        simp only [List.length_cons]
        omega
      · exact absurd h (by simp)

theorem grabSeg_length {s a rest : List Char} (h : grabSeg s = some (a, rest)) :
    rest.length < s.length := by
  unfold grabSeg at h
  split at h
  · exact absurd h (by simp)
  · split at h
    next rest2 heq =>
      cases h
      have h1 : (s.dropWhile wordDash).length ≤ s.length :=
        (List.dropWhile_sublist wordDash).length_le
      have h2 := eatLit_length heq
      have h3 : ("/".toList).length = 1 := rfl
      omega
    · exact absurd h (by simp)

theorem eatKind_length {s kind rest : List Char}
    (h : eatKind s = some (kind, rest)) : rest.length < s.length := by
  unfold eatKind at h
  split at h
  next r heq =>
    cases h
    have := eatLit_length heq
    simp at this
    omega
  · split at h
    next r heq =>
      cases h
      have := eatLit_length heq
      simp at this
      omega
    · exact absurd h (by simp)

theorem matchIssueAt_rest_length {s : List Char}
    {g : List Char × List Char × List Char} {rest : List Char}
    (h : matchIssueAt s = some (g, rest)) : rest.length < s.length := by
  unfold matchIssueAt at h
  split at h
  · exact absurd h (by simp)
  · exact absurd h (by simp)
  next w s2 h1 =>
    have hl1 := eatLit_length h1
    simp only [List.length_cons] at hl1
    split at h
    · exact absurd h (by simp)
    split at h
    · exact absurd h (by simp)
    next s3 h2 =>
      have hl2 := eatLit_length h2
      split at h
      · exact absurd h (by simp)
      next a s4 h3 =>
        have hl3 := grabSeg_length h3
        split at h
        · exact absurd h (by simp)
        next b s5 h4 =>
          have hl4 := grabSeg_length h4
          split at h
          · exact absurd h (by simp)
          split at h
          · exact absurd h (by simp)
          next s6 h5 =>
            have hl5 := eatLit_length h5
            have hl5b : (s5.dropWhile wordDash).length ≤ s5.length :=
              (List.dropWhile_sublist wordDash).length_le
            split at h
            · exact absurd h (by simp)
            next kind s7 h6 =>
              have hl6 := eatKind_length h6
              have hl7 : (s7.dropWhile Char.isDigit).length ≤ s7.length :=
                (List.dropWhile_sublist Char.isDigit).length_le
              split at h
              · exact absurd h (by simp)
              · cases h
                omega

/-- Fuel-indexed scan loop of `findall`; the fuel only serves structural
recursion and is irrelevant once it exceeds the string length
(`findallGo_fuel`). -/
def findallGo : Nat → List Char → List (List Char × List Char × List Char)
  | 0, _ => []
  | n + 1, s =>
    match matchIssueAt s with
    | some (g, rest) => g :: findallGo n rest
    | none =>
      match s with
      | [] => []
      | _ :: tl => findallGo n tl

theorem findallGo_fuel :
    ∀ {f1 : Nat} {s : List Char} {f2 : Nat}, s.length < f1 → s.length < f2 →
      findallGo f1 s = findallGo f2 s := by
  intro f1
  induction f1 with
  | zero => intro s f2 h1; omega
  | succ n ih =>
    intro s f2 h1 h2
    cases f2 with
    | zero => omega
    | succ m =>
      simp only [findallGo]
      split
      next g rest hm =>
        have hr := matchIssueAt_rest_length hm
        rw [@ih rest m (by omega) (by omega)]
      next hm =>
        cases s with
        | nil => rfl
        | cons c tl =>
          simp only [List.length_cons] at h1 h2
          exact ih (by omega) (by omega)

/-- Embeds `issue_url_pattern.findall(body)`: left-to-right non-overlapping scan;
on a match, continue after its end, otherwise advance one character. -/
def findallIssue (s : List Char) : List (List Char × List Char × List Char) :=
  findallGo (s.length + 1) s

theorem findallIssue_nil : findallIssue [] = [] := rfl

theorem findallIssue_match {s : List Char}
    {g : List Char × List Char × List Char} {rest : List Char}
    (h : matchIssueAt s = some (g, rest)) :
    findallIssue s = g :: findallIssue rest := by
  have hr := matchIssueAt_rest_length h
  unfold findallIssue
  simp only [findallGo, h]
  exact congrArg (g :: ·)
    (@findallGo_fuel s.length rest (rest.length + 1) (by omega) (by omega))

theorem findallIssue_skip {c : Char} {tl : List Char}
    (h : matchIssueAt (c :: tl) = none) :
    findallIssue (c :: tl) = findallIssue tl := by
  unfold findallIssue
  simp only [findallGo, h]

/-- Python `str.split("/")` (all occurrences, empties kept). -/
def splitSlash : List Char → List (List Char)
  | [] => [[]]
  | c :: tl =>
    if c = '/' then [] :: splitSlash tl
    else
      match splitSlash tl with
      | [] => [[c]]
      | h :: t => (c :: h) :: t

/-- Embeds `"/".join(parts)`. -/
def joinSlash (parts : List (List Char)) : List Char :=
  List.intercalate ['/'] parts

/-- Embeds `_extract_issue_info_from_comments`: for each comment, each URL match
contributes `("/".join(full_match.split("/")[:-3]), issue_id)`. -/
def extract_issue_info_from_comments (comments : List Comment) :
    List (List Char × List Char) :=
  (comments.map fun c =>
    (findallIssue c.body).map fun m =>
      (joinSlash ((splitSlash m.1).take ((splitSlash m.1).length - 3)),
       m.2.2)).flatten

/-- Embeds `calculate_scope_change_rate`. -/
def calculate_scope_change_rate (planning_comments review_comments : List Comment) :
    ℕ × ℚ :=
  let initial_planned_issue_info :=
    (extract_issue_info_from_comments planning_comments).toFinset
  let all_mentioned_issue_info :=
    (extract_issue_info_from_comments
      (review_comments ++ planning_comments)).toFinset
  let new_issues := all_mentioned_issue_info \ initial_planned_issue_info
  if initial_planned_issue_info.card = 0 then (0, 0)
  else (new_issues.card,
        (new_issues.card : ℚ) / (initial_planned_issue_info.card : ℚ))

/-! Section: the remote-service layer

A `python-gitlab` call either returns data or raises; this is modelled by
an explicit record of `Except`-returning operations (one per remote call
the code makes).  A raised exception propagates unhandled, which in this
embedding is the `Except` bind short-circuiting on `.error`. -/

/-- The remote operations used by `GitLabSprintHelper` (authentication and
group selection are fixed at construction, so they are part of the record
itself). -/
structure Api (eps : Type) where
  listEpics : Except eps (List Epic)
  listEpicNotes : Epic → Except eps (List Comment)
  listCreatedMrs : Epic → Except eps (List Mr)
  listActiveMrs : Epic → Except eps (List Mr)
  listDiscussions : Mr → Except eps (List (List Note))
  getIssueState : List Char → List Char → Except eps (List Char)

/-- An exception during metric computation: either a remote-call error or
a `ValueError` from `strptime`. -/
inductive Err (eps : Type) where
  | api (e : eps)
  | parse
deriving DecidableEq

/-- Lift a remote-call result into the metric computation's error type. -/
def liftApi {eps a : Type} : Except eps a → Except (Err eps) a
  | .ok x => .ok x
  | .error e => .error (.api e)

/-- Lift a parse result (a raised `ValueError` becomes `Err.parse`). -/
def liftParse {eps a : Type} : Option a → Except (Err eps) a
  | some x => .ok x
  | none => .error .parse

/-- Embeds `find_sprint_epic_by_name`: first epic whose title starts with
`"Sprint"` and contains the query as a substring; `None` if there is none
(the Python function falls off the loop). -/
def find_sprint_epic_by_name {eps : Type} (api : Api eps)
    (sprint_name : List Char) : Except eps (Option Epic) :=
  match api.listEpics with
  | .error e => .error e
  | .ok epics =>
    .ok (epics.find? fun epic =>
      "Sprint".toList.isPrefixOf epic.title && containsSub sprint_name epic.title)

/-- Embeds `list_all_sprints`: every epic whose title `re.match`es the sprint
pattern, in the order the remote service returned them. -/
def list_all_sprints {eps : Type} (api : Api eps) : Except eps (List Epic) :=
  match api.listEpics with
  | .error e => .error e
  | .ok sprints => .ok (sprints.filter fun sprint => sprintTitleMatch sprint.title)

/-- Embeds `fetch_epic_comments`. -/
def fetch_epic_comments {eps : Type} (api : Api eps) (epic : Epic) :
    Except eps (List Comment) :=
  api.listEpicNotes epic

/-- Embeds `fetch_created_mrs_in_sprint`. -/
def fetch_created_mrs_in_sprint {eps : Type} (api : Api eps) (sprint : Epic) :
    Except eps (List Mr) :=
  api.listCreatedMrs sprint

/-- Embeds `fetch_active_mrs_in_sprint`. -/
def fetch_active_mrs_in_sprint {eps : Type} (api : Api eps) (sprint : Epic) :
    Except eps (List Mr) :=
  api.listActiveMrs sprint

/-- Embeds `fetch_mr_comments`: flatten the discussions of one merge request and
keep the non-system notes.  The project/MR/discussion fetches are one
remote round trip here. -/
def fetch_mr_comments {eps : Type} (api : Api eps) (mr : Mr) :
    Except eps (List Note) :=
  match api.listDiscussions mr with
  | .error e => .error e
  | .ok discussions =>
    .ok ((discussions.map fun notes => notes.filter fun n => !n.system).flatten)

/-- The accumulation loop of `calculate_code_review_efficiency`:
`(total_discussions, mr_with_discussions)` over the merge requests. -/
def reviewEffLoop {eps : Type} (api : Api eps) :
    List Mr → Nat → Nat → Except eps (Nat × Nat)
  | [], td, mwd => .ok (td, mwd)
  | mr :: tl, td, mwd =>
    match fetch_mr_comments api mr with
    | .error e => .error e
    | .ok comments =>
      if comments.isEmpty then reviewEffLoop api tl td mwd
      else reviewEffLoop api tl (td + comments.length) (mwd + 1)

/-- Embeds `calculate_code_review_efficiency`:
`(average_discussions_per_mr, percentage_without_discussions)`. -/
def calculate_code_review_efficiency {eps : Type} (api : Api eps)
    (mrs_in_sprint : List Mr) : Except eps (ℚ × ℚ) :=
  match reviewEffLoop api mrs_in_sprint 0 0 with
  | .error e => .error e
  | .ok (total_discussions, mr_with_discussions) =>
    if mrs_in_sprint.isEmpty then .ok (0, 0)
    else .ok ((total_discussions : ℚ) / (mrs_in_sprint.length : ℚ),
      ((mrs_in_sprint.length : ℚ) - (mr_with_discussions : ℚ))
        / (mrs_in_sprint.length : ℚ) * 100)

/-- The loop of `calculate_planned_issue_completion_rate`: count the
referenced issues whose fetched state is closed or merged. -/
def plannedLoop {eps : Type} (api : Api eps) :
    List (List Char × List Char) → Nat → Except eps Nat
  | [], completed => .ok completed
  | (project_path, issue_id) :: tl, completed =>
    match api.getIssueState project_path issue_id with
    | .error e => .error e
    | .ok st =>
      if st = "closed".toList ∨ st = "merged".toList then
        plannedLoop api tl (completed + 1)
      else plannedLoop api tl completed

/-- Embeds `calculate_planned_issue_completion_rate`. -/
def calculate_planned_issue_completion_rate {eps : Type} (api : Api eps)
    (planning_comments : List Comment) : Except eps ℚ :=
  let issue_infos := extract_issue_info_from_comments planning_comments
  match plannedLoop api issue_infos 0 with
  | .error e => .error e
  | .ok completed_issues =>
    if issue_infos.isEmpty then .ok 0
    else .ok ((completed_issues : ℚ) / (issue_infos.length : ℚ))

/-- The loop of `calculate_mr_collaboration_score`:
`(unique_contributors, total_participants, total_discussions)`. -/
def collabLoop {eps : Type} (api : Api eps) :
    List Mr → Finset Nat → Nat → Nat → Except eps (Finset Nat × Nat × Nat)
  | [], contributors, tp, td => .ok (contributors, tp, td)
  | mr :: tl, contributors, tp, td =>
    match fetch_mr_comments api mr with
    | .error e => .error e
    | .ok comments =>
      let contributors2 :=
        comments.foldl (fun acc n => insert n.author_id acc) contributors
      let tp2 := tp + comments.length
      let td2 := if comments.isEmpty then td else td + 1
      collabLoop api tl contributors2 tp2 td2

/-- Embeds `calculate_mr_collaboration_score`:
`(len(unique_contributors), average_participants_per_discussion)`. -/
def calculate_mr_collaboration_score {eps : Type} (api : Api eps)
    (mrs_in_sprint : List Mr) : Except eps (Nat × ℚ) :=
  match collabLoop api mrs_in_sprint ∅ 0 0 with
  | .error e => .error e
  | .ok (unique_contributors, total_participants, total_discussions) =>
    .ok (unique_contributors.card,
      if total_discussions = 0 then 0
      else (total_participants : ℚ) / (total_discussions : ℚ))

/-- One step of the `calculate_work_distribution` dictionary update. -/
def bumpAuthor : List (List Char × Nat) → List Char → List (List Char × Nat)
  | [], u => [(u, 1)]
  | (k, v) :: tl, u =>
    if k = u then (k, v + 1) :: tl else (k, v) :: bumpAuthor tl u

/-- Embeds `calculate_work_distribution`: an insertion-ordered mapping from MR
author username to the count of authored MRs. -/
def calculate_work_distribution (mrs_in_sprint : List Mr) :
    List (List Char × Nat) :=
  mrs_in_sprint.foldl (fun m mr => bumpAuthor m mr.author.username) []

/-- The per-sprint metrics record (the dictionary built by
`calculate_sprint_metrics`, field per key, including the misspelled
`percent_mrs_dwithout_iscussions` key). -/
structure Metrics where
  sprint_name : List Char
  start_date : List Char
  end_date : List Char
  total_planning_comments : Nat
  total_review_comments : Nat
  new_mrs_in_sprint : Nat
  all_active_mrs_in_sprint : Nat
  mr_rate : ℚ
  mr_completion_rate : ℚ
  average_time_to_merge : ℚ
  average_discussions_per_mr : ℚ
  percent_mrs_dwithout_iscussions : ℚ
  planned_issue_completion_rate : ℚ
  scope_change_new_issues : Nat
  scope_change_rate : ℚ
  collaboration_score_unique_contributors : Nat
  collaboration_score_avg_participants : ℚ
  work_distribution : List (List Char × Nat)
deriving DecidableEq

/-- Embeds `calculate_sprint_metrics`, with the fetches and the dictionary-value
computations in the Python evaluation order; any raised exception
(remote-call error or `strptime` failure) aborts the whole record. -/
def calculate_sprint_metrics {eps : Type} (api : Api eps) (sprint : Epic) :
    Except (Err eps) Metrics :=
  match liftApi (fetch_epic_comments api sprint) with
  | .error e => .error e
  | .ok comments =>
    match liftParse (split_sprint_comments comments) with
    | .error e => .error e
    | .ok (planning_comments, review_comments) =>
      match liftApi (fetch_created_mrs_in_sprint api sprint) with
      | .error e => .error e
      | .ok new_mrs =>
        match liftApi (fetch_active_mrs_in_sprint api sprint) with
        | .error e => .error e
        | .ok active_mrs =>
          match liftApi (calculate_code_review_efficiency api active_mrs) with
          | .error e => .error e
          | .ok (average_discussions, percent_without_discussions) =>
            match calculate_scope_change_rate planning_comments review_comments with
            | (new_issues, scope_change_rate) =>
              match liftApi (calculate_mr_collaboration_score api active_mrs) with
              | .error e => .error e
              | .ok (unique_contributors, avg_participants) =>
                match liftParse (calculate_average_time_to_merge active_mrs) with
                | .error e => .error e
                | .ok avg_time_to_merge =>
                  match liftApi (calculate_planned_issue_completion_rate api
                      planning_comments) with
                  | .error e => .error e
                  | .ok planned_rate =>
                    .ok {
                      sprint_name := sprint.title,
                      start_date := sprint.start_date,
                      end_date := sprint.end_date,
                      total_planning_comments := planning_comments.length,
                      total_review_comments := review_comments.length,
                      new_mrs_in_sprint := new_mrs.length,
                      all_active_mrs_in_sprint := active_mrs.length,
                      mr_rate := calculate_mr_rate planning_comments new_mrs,
                      mr_completion_rate := calculate_mr_completion_rate new_mrs,
                      average_time_to_merge := avg_time_to_merge,
                      average_discussions_per_mr := average_discussions,
                      percent_mrs_dwithout_iscussions := percent_without_discussions,
                      planned_issue_completion_rate := planned_rate,
                      scope_change_new_issues := new_issues,
                      scope_change_rate := scope_change_rate,
                      collaboration_score_unique_contributors := unique_contributors,
                      collaboration_score_avg_participants := avg_participants,
                      work_distribution := calculate_work_distribution active_mrs }

/-- The loop of `get_metrics_for_all_sprints`. -/
def metricsLoop {eps : Type} (api : Api eps) :
    List Epic → Except (Err eps) (List Metrics)
  | [] => .ok []
  | sprint :: tl =>
    match calculate_sprint_metrics api sprint with
    | .error e => .error e
    | .ok metrics =>
      match metricsLoop api tl with
      | .error e => .error e
      | .ok rest => .ok (metrics :: rest)

/-- Embeds `get_metrics_for_all_sprints`: metrics for every sprint in order, with
no isolation of failures. -/
def get_metrics_for_all_sprints {eps : Type} (api : Api eps) :
    Except (Err eps) (List Metrics) :=
  match list_all_sprints api with
  | .error e => .error (.api e)
  | .ok sprints => metricsLoop api sprints

/-! Section: derived and spec-side definitions used in the statements. -/

/-- Per-MR time to merge in hours: the per-MR seconds value divided by
3600 (the spec states the average as a mean of hour values). -/
def hoursToMerge (mr : Mr) : Option ℚ :=
  (mrMergeSeconds mr).map fun s => s / 3600

/-- The per-MR hour values over a list, failing if any timestamp fails. -/
def seqHours : List Mr → Option (List ℚ)
  | [] => some []
  | mr :: tl =>
    match hoursToMerge mr with
    | none => none
    | some h =>
      match seqHours tl with
      | none => none
      | some rest => some (h :: rest)

/-- The spec's reading of the sprint filter: the title must *exactly*
(fully) match `Sprint \d+ / \d+ : .+`, i.e. the greedy `.+` must consume
everything after `: `, so the description is nonempty and contains no
newline.  This is the comparison definition for the refinement claim; the
code's `re.match` is `sprintTitleMatch`. -/
def sprintTitleExactSpec (t : List Char) : Bool :=
  match eatLit "Sprint ".toList t with
  | none => false
  | some r1 =>
    if (r1.takeWhile Char.isDigit).isEmpty then false else
    match eatLit "/".toList (r1.dropWhile Char.isDigit) with
    | none => false
    | some r3 =>
      if (r3.takeWhile Char.isDigit).isEmpty then false else
      match eatLit ": ".toList (r3.dropWhile Char.isDigit) with
      | none => false
      | some r5 => !r5.isEmpty && r5.all (· ≠ '\n')

/-! Section: concrete fixtures for the scenario parts of the claims. -/

def cGoal : Comment :=
  ⟨⟨"alice".toList⟩, "# Goal: ship X".toList, "2024-05-01T10:00:00.000Z".toList⟩

def cReviewMark : Comment :=
  ⟨⟨"bob".toList⟩, "# Review".toList, "2024-05-02T10:00:00.000Z".toList⟩

def cReflect : Comment :=
  ⟨⟨"carol".toList⟩, "# Reflection: went well".toList,
   "2024-05-03T10:00:00.000Z".toList⟩

def cGoalBob : Comment :=
  ⟨⟨"bob".toList⟩, "# Goal: also this".toList, "2024-05-01T11:00:00.000Z".toList⟩

def mrOpened : Mr := ⟨"opened".toList, "x".toList, "x".toList, ⟨"zoe".toList⟩⟩

def mr36 : Mr :=
  ⟨"merged".toList, "2024-01-01T00:00:00.000Z".toList,
   "2024-01-02T12:00:00.000Z".toList, ⟨"zoe".toList⟩⟩

def cPlanIssues : Comment :=
  ⟨⟨"alice".toList⟩,
   ("plan https://gitlab.com/g/s/p1/-/issues/1 and https://gitlab.com/g/s/p1/-/issues/2").toList,
   "2024-05-01T10:00:00.000Z".toList⟩

def cReviewIssues : Comment :=
  ⟨⟨"bob".toList⟩,
   ("done https://gitlab.com/g/s/p1/-/issues/3 also https://gitlab.com/g/s/p1/-/issues/1").toList,
   "2024-05-03T10:00:00.000Z".toList⟩

def sprintA : Epic :=
  ⟨"Sprint 1/3: demo sprint".toList, "2024-05-01".toList, "2024-05-14".toList⟩

/-- An epic whose title prefix-matches the sprint pattern but contains a
newline, so it does not *fully* match it. -/
def epicNl : Epic :=
  ⟨("Sprint 1/2: a" ++ "\n" ++ "b").toList, "2024-05-01".toList, "2024-05-14".toList⟩

/-- A remote service on which every call succeeds with empty data. -/
def apiEmpty : Api Unit :=
  ⟨.ok [], fun _ => .ok [], fun _ => .ok [], fun _ => .ok [],
   fun _ => .ok [], fun _ _ => .ok []⟩

/-- A remote service exposing only `epicNl`. -/
def apiNl : Api Unit :=
  ⟨.ok [epicNl], fun _ => .ok [], fun _ => .ok [], fun _ => .ok [],
   fun _ => .ok [], fun _ _ => .ok []⟩

/-- A remote service exposing `sprintA` whose discussion listing fails
with error code 7. -/
def apiFail : Api Nat :=
  ⟨.ok [sprintA], fun _ => .ok [], fun _ => .ok [], fun _ => .ok [mrOpened],
   fun _ => .error 7, fun _ _ => .ok []⟩

/-- A remote service for the lookup-by-name scenario. -/
def apiFind : Api Unit :=
  ⟨.ok [epicNl, sprintA], fun _ => .ok [], fun _ => .ok [], fun _ => .ok [],
   fun _ => .ok [], fun _ _ => .ok []⟩

/-- A well-formed issue/work-item URL occurrence: the kind alternative and
the three path segments and numeric id captured by the regex. -/
structure UrlRef where
  kind : List Char
  seg1 : List Char
  seg2 : List Char
  seg3 : List Char
  issue_id : List Char
deriving DecidableEq

/-- The full URL text of one reference (host fixed to `gitlab.com` as in
the code's pattern). -/
def urlCore (u : UrlRef) : List Char :=
  "https://gitlab.com/".toList
    ++ (u.seg1 ++ '/' :: (u.seg2 ++ '/' :: (u.seg3
      ++ ('/' :: '-' :: '/' :: (u.kind ++ '/' :: u.issue_id)))))

/-- A comment body as filler text interleaved with URL references: the
leading filler, then each reference followed by its trailing filler. -/
def urlBody : List Char → List (UrlRef × List Char) → List Char
  | f0, [] => f0
  | f0, (u, f) :: rest => f0 ++ urlCore u ++ urlBody f rest

/-- A planning comment whose body carries an issue URL. -/
def cGoalUrl : Comment :=
  ⟨⟨"alice".toList⟩,
   ("# Goal: fix https://gitlab.com/g/s/p1/-/issues/1").toList,
   "2024-05-01T10:00:00.000Z".toList⟩

/-- A remote service whose epic-notes listing fails with error code 3. -/
def apiNotesFail : Api Nat :=
  ⟨.ok [sprintA], fun _ => .error 3, fun _ => .ok [], fun _ => .ok [],
   fun _ => .ok [], fun _ _ => .ok []⟩

/-- A remote service whose issue-state lookup fails with error code 9,
with a planning comment that references an issue. -/
def apiIssueFail : Api Nat :=
  ⟨.ok [sprintA], fun _ => .ok [cGoalUrl], fun _ => .ok [], fun _ => .ok [],
   fun _ => .ok [], fun _ _ => .error 9⟩

/-! Section: helper lemmas. -/

theorem collabLoop_all_empty {eps : Type} (api : Api eps) :
    ∀ (mrs : List Mr) (s : Finset Nat) (tp td : Nat),
      (∀ mr ∈ mrs, fetch_mr_comments api mr = .ok []) →
      collabLoop api mrs s tp td = .ok (s, tp, td) := by
  intro mrs
  induction mrs with
  | nil => intro s tp td _; rfl
  | cons mr tl ih =>
    intro s tp td h
    have hmr := h mr (by simp)
    simp only [collabLoop, hmr]
    simpa using ih s tp td fun x hx => h x (by simp [hx])

/-! Section: the claims. -/

/-- C4: every ratio-form metric calculator returns 0 (or an all-zero
tuple) and raises nothing when its denominator is zero: no distinct
planning authors, no created MRs, no merged MRs, no active MRs, no issue
references, empty initial plan, and no commented MRs respectively. -/
theorem claim4_zero_denominators :
    (∀ (planning : List Comment) (mrs : List Mr),
        (planning.map fun c => c.author.username).toFinset.card = 0 →
        calculate_mr_rate planning mrs = 0) ∧
    calculate_mr_completion_rate [] = 0 ∧
    (∀ mrs : List Mr, (∀ mr ∈ mrs, mr.state ≠ "merged".toList) →
        calculate_average_time_to_merge mrs = some 0) ∧
    (∀ (eps : Type) (api : Api eps),
        calculate_code_review_efficiency api [] = .ok (0, 0)) ∧
    (∀ (eps : Type) (api : Api eps) (planning : List Comment),
        extract_issue_info_from_comments planning = [] →
        calculate_planned_issue_completion_rate api planning = .ok 0) ∧
    (∀ planning review : List Comment,
        (extract_issue_info_from_comments planning).toFinset.card = 0 →
        calculate_scope_change_rate planning review = (0, 0)) ∧
    (∀ (eps : Type) (api : Api eps) (mrs : List Mr),
        (∀ mr ∈ mrs, fetch_mr_comments api mr = .ok []) →
        calculate_mr_collaboration_score api mrs = .ok (0, 0)) := by
  refine ⟨?_, rfl, ?_, ?_, ?_, ?_, ?_⟩
  · intro planning mrs h
    simp [calculate_mr_rate, h]
  · intro mrs h
    have hf : (mrs.filter fun mr => mr.state = "merged".toList) = [] := by
      rw [List.filter_eq_nil_iff]
      intro mr hmr
      simpa using h mr hmr
    simp only [calculate_average_time_to_merge, hf]
    rfl
  · intro eps api
    rfl
  · intro eps api planning h
    simp [calculate_planned_issue_completion_rate, h, plannedLoop]
  · intro planning review h
    simp [calculate_scope_change_rate, h]
  · intro eps api mrs h
    simp [calculate_mr_collaboration_score, collabLoop_all_empty api mrs ∅ 0 0 h]

theorem claim4_witness :
    calculate_mr_rate [] [mrOpened] = 0 ∧
    calculate_average_time_to_merge [mrOpened] = some 0 ∧
    calculate_planned_issue_completion_rate apiEmpty [cGoal] = .ok 0 ∧
    calculate_scope_change_rate [cGoal] [cReflect] = (0, 0) ∧
    calculate_mr_collaboration_score apiEmpty [mrOpened] = .ok (0, 0) :=
  ⟨claim4_zero_denominators.1 [] [mrOpened] (by decide),
   claim4_zero_denominators.2.2.1 [mrOpened] (by decide),
   claim4_zero_denominators.2.2.2.2.1 Unit apiEmpty [cGoal] (by decide),
   claim4_zero_denominators.2.2.2.2.2.1 [cGoal] [cReflect] (by decide),
   claim4_zero_denominators.2.2.2.2.2.2 Unit apiEmpty [mrOpened]
     (fun mr _ => rfl)⟩

/-- C5: the MR rate is the created-in-window MR count divided by the
number of distinct planning-comment author usernames, 0 when there are no
planning authors; 4 MRs and 2 distinct authors give rate 2. -/
theorem claim5_mr_rate :
    (∀ (planning : List Comment) (mrs : List Mr),
        ((planning.map fun c => c.author.username).toFinset.card ≠ 0 →
          calculate_mr_rate planning mrs =
            (mrs.length : ℚ) /
              ((planning.map fun c => c.author.username).toFinset.card : ℚ)) ∧
        ((planning.map fun c => c.author.username).toFinset.card = 0 →
          calculate_mr_rate planning mrs = 0)) ∧
    calculate_mr_rate [cGoal, cGoalBob, cGoal] [mrOpened, mrOpened, mrOpened, mrOpened]
      = 2 := by
  constructor
  · intro planning mrs
    constructor
    · intro h
      simp [calculate_mr_rate, h]
    · intro h
      simp [calculate_mr_rate, h]
  · have h : (([cGoal, cGoalBob, cGoal]).map fun c => c.author.username).toFinset.card
        = 2 := by decide
    simp only [calculate_mr_rate, h]
    norm_num

theorem claim5_witness :
    calculate_mr_rate [cGoal] [mrOpened, mrOpened, mrOpened] =
      (([mrOpened, mrOpened, mrOpened] : List Mr).length : ℚ) /
        ((([cGoal] : List Comment).map fun c => c.author.username).toFinset.card : ℚ) :=
  (claim5_mr_rate.1 [cGoal] [mrOpened, mrOpened, mrOpened]).1 (by decide)

theorem seqHours_eq (l : List Mr) :
    seqHours l = (seqSecs l).map (List.map fun q => q / 3600) := by
  induction l with
  | nil => rfl
  | cons mr tl ih =>
    simp only [seqHours, seqSecs, hoursToMerge, ih]
    cases mrMergeSeconds mr with
    | none => rfl
    | some s =>
      cases seqSecs tl with
      | none => rfl
      | some rest => rfl

theorem seqSecs_length : ∀ {l : List Mr} {secs : List ℚ},
    seqSecs l = some secs → secs.length = l.length := by
  intro l
  induction l with
  | nil => intro secs h; cases h; rfl
  | cons mr tl ih =>
    intro secs h
    simp only [seqSecs] at h
    split at h
    · exact absurd h (by simp)
    · split at h
      · exact absurd h (by simp)
      next rest hrest =>
        cases h
        simp [ih hrest]

theorem sum_map_div_const (l : List ℚ) (c : ℚ) :
    (l.map fun q => q / c).sum = l.sum / c := by
  induction l with
  | nil => simp
  | cons a tl ih => simp [ih, add_div]

/-- C6: the average time to merge is the mean over merged MRs of merge
time minus creation time, converted from seconds to hours, 0 when no MR is
merged; one MR created 2024-01-01T00:00:00.000Z and merged
2024-01-02T12:00:00.000Z gives 36 hours. -/
theorem claim6_average_time_to_merge :
    (∀ (mrs : List Mr) (hs : List ℚ),
        seqHours (mrs.filter fun mr => mr.state = "merged".toList) = some hs →
        (mrs.filter fun mr => mr.state = "merged".toList) ≠ [] →
        calculate_average_time_to_merge mrs = some (hs.sum / (hs.length : ℚ))) ∧
    (∀ mrs : List Mr, (∀ mr ∈ mrs, mr.state ≠ "merged".toList) →
        calculate_average_time_to_merge mrs = some 0) ∧
    calculate_average_time_to_merge [mr36] = some 36 := by
  refine ⟨?_, ?_, ?_⟩
  · intro mrs hs h hne
    rw [seqHours_eq] at h
    rcases Option.map_eq_some'.mp h with ⟨secs, hsecs, hmap⟩
    subst hmap
    have hlen := seqSecs_length hsecs
    simp only [calculate_average_time_to_merge, hsecs]
    rw [if_neg (by simpa [List.isEmpty_iff] using hne)]
    rw [sum_map_div_const, List.length_map, hlen]
    rw [div_div, div_div, mul_comm]
  · intro mrs h
    have hf : (mrs.filter fun mr => mr.state = "merged".toList) = [] := by
      rw [List.filter_eq_nil_iff]
      intro mr hmr
      simpa using h mr hmr
    simp only [calculate_average_time_to_merge, hf]
    rfl
  · have h1 : parseDT mr36.created_at = some ⟨2024, 1, 1, 0, 0, 0, 0⟩ := by decide
    have h2 : parseDT mr36.merged_at = some ⟨2024, 1, 2, 12, 0, 0, 0⟩ := by decide
    have h3 : toMicros ⟨2024, 1, 2, 12, 0, 0, 0⟩ - toMicros ⟨2024, 1, 1, 0, 0, 0, 0⟩
        = 129600000000 := by decide
    have h4 : ([mr36].filter fun mr => mr.state = "merged".toList) = [mr36] := by
      decide
    simp only [calculate_average_time_to_merge, h4, seqSecs, mrMergeSeconds,
      h1, h2, h3]
    norm_num

theorem claim6_witness :
    calculate_average_time_to_merge [mr36] =
      some ((36 : ℚ) / ((1 : Nat) : ℚ)) := by
  have happ := claim6_average_time_to_merge.1 [mr36] [36]
  have h1 : seqHours ([mr36].filter fun mr => mr.state = "merged".toList)
      = some [36] := by
    have hp1 : parseDT mr36.created_at = some ⟨2024, 1, 1, 0, 0, 0, 0⟩ := by decide
    have hp2 : parseDT mr36.merged_at = some ⟨2024, 1, 2, 12, 0, 0, 0⟩ := by decide
    have hp3 : toMicros ⟨2024, 1, 2, 12, 0, 0, 0⟩ - toMicros ⟨2024, 1, 1, 0, 0, 0, 0⟩
        = 129600000000 := by decide
    have hp4 : ([mr36].filter fun mr => mr.state = "merged".toList) = [mr36] := by
      decide
    simp only [hp4, seqHours, hoursToMerge, mrMergeSeconds, hp1, hp2, hp3]
    norm_num
  simpa using happ h1 (by decide)

/-- C7: with P the issue references of the planning comments and A those
of review plus planning comments (set semantics), the scope-change result
is (card (A minus P), card (A minus P) / card P) for nonempty P and (0, 0)
for empty P; the scenario with P of size 2 and one new reference gives
(1, 1/2). -/
theorem claim7_scope_change :
    (∀ planning review : List Comment,
        ((extract_issue_info_from_comments planning).toFinset.card ≠ 0 →
          calculate_scope_change_rate planning review =
            (((extract_issue_info_from_comments (review ++ planning)).toFinset \
                (extract_issue_info_from_comments planning).toFinset).card,
             ((((extract_issue_info_from_comments (review ++ planning)).toFinset \
                (extract_issue_info_from_comments planning).toFinset).card : ℚ) /
              ((extract_issue_info_from_comments planning).toFinset.card : ℚ)))) ∧
        ((extract_issue_info_from_comments planning).toFinset.card = 0 →
          calculate_scope_change_rate planning review = (0, 0))) ∧
    calculate_scope_change_rate [cPlanIssues] [cReviewIssues] = (1, 1 / 2) := by
  constructor
  · intro planning review
    constructor
    · intro h
      simp [calculate_scope_change_rate, h]
    · intro h
      simp [calculate_scope_change_rate, h]
  · have h1 : (extract_issue_info_from_comments [cPlanIssues]).toFinset.card = 2 := by
      decide
    have h2 : ((extract_issue_info_from_comments ([cReviewIssues] ++ [cPlanIssues])).toFinset \
        (extract_issue_info_from_comments [cPlanIssues]).toFinset).card = 1 := by
      decide
    simp only [calculate_scope_change_rate, h1, h2]
    norm_num

theorem claim7_witness :
    calculate_scope_change_rate [cPlanIssues] [] =
      (((extract_issue_info_from_comments ([] ++ [cPlanIssues])).toFinset \
          (extract_issue_info_from_comments [cPlanIssues]).toFinset).card,
       ((((extract_issue_info_from_comments ([] ++ [cPlanIssues])).toFinset \
          (extract_issue_info_from_comments [cPlanIssues]).toFinset).card : ℚ) /
        ((extract_issue_info_from_comments [cPlanIssues]).toFinset.card : ℚ))) :=
  (claim7_scope_change.1 [cPlanIssues] []).1 (by decide)

theorem splitGo_mem :
    ∀ {l : List Comment} {b : Bool} {x : Comment},
      (x ∈ (splitGo l b).1 ∨ x ∈ (splitGo l b).2) →
      splitterMatch (stripL x.body) = false ∧ x ∈ l := by
  intro l
  induction l with
  | nil => intro b x h; simp [splitGo] at h
  | cons c cs ih =>
    intro b x h
    simp only [splitGo] at h
    split at h
    · rcases ih h with ⟨h1, h2⟩
      exact ⟨h1, by simp [h2]⟩
    next hs =>
      split at h
      · simp only [List.mem_cons] at h
        rcases h with h | (h | h)
        · rcases ih (Or.inl h) with ⟨h1, h2⟩
          exact ⟨h1, by simp [h2]⟩
        · subst h
          exact ⟨by simpa using hs, by simp⟩
        · rcases ih (Or.inr h) with ⟨h1, h2⟩
          exact ⟨h1, by simp [h2]⟩
      · split at h
        · simp only [List.mem_cons] at h
          rcases h with (h | h) | h
          · subst h
            exact ⟨by simpa using hs, by simp⟩
          · rcases ih (Or.inl h) with ⟨h1, h2⟩
            exact ⟨h1, by simp [h2]⟩
          · rcases ih (Or.inr h) with ⟨h1, h2⟩
            exact ⟨h1, by simp [h2]⟩
        · rcases ih h with ⟨h1, h2⟩
          exact ⟨h1, by simp [h2]⟩

theorem splitGo_mem_fst_goal :
    ∀ {l : List Comment} {b : Bool} {x : Comment},
      x ∈ (splitGo l b).1 → goalMatch x.body = true := by
  intro l
  induction l with
  | nil => intro b x h; simp [splitGo] at h
  | cons c cs ih =>
    intro b x h
    simp only [splitGo] at h
    split at h
    · exact ih h
    · split at h
      · simp only at h
        exact ih h
      · split at h
        next hg =>
          simp only [List.mem_cons] at h
          rcases h with h | h
          · subst h; exact hg
          · exact ih h
        · exact ih h

theorem splitGo_fst_sublist :
    ∀ (l : List Comment) (b : Bool), List.Sublist (splitGo l b).1 l := by
  intro l
  induction l with
  | nil => intro b; simp [splitGo]
  | cons c cs ih =>
    intro b
    simp only [splitGo]
    split
    · exact .cons c (ih true)
    · split
      · simpa using List.Sublist.cons c (ih b)
      · split
        · simpa using List.Sublist.cons₂ c (ih b)
        · exact .cons c (ih b)

theorem splitGo_no_splitter :
    ∀ {l : List Comment}, (∀ x ∈ l, splitterMatch (stripL x.body) = false) →
      splitGo l false = (l.filter fun c => goalMatch c.body, []) := by
  intro l
  induction l with
  | nil => intro _; rfl
  | cons c cs ih =>
    intro h
    have hc := h c (by simp)
    have hcs : ∀ x ∈ cs, splitterMatch (stripL x.body) = false := fun x hx =>
      h x (by simp [hx])
    by_cases hg : goalMatch c.body = true
    · simp [splitGo, hc, hg, ih hcs, List.filter_cons]
    · simp only [Bool.not_eq_true] at hg
      simp [splitGo, hc, hg, ih hcs, List.filter_cons]

theorem splitGo_all_goal :
    ∀ {l : List Comment},
      (∀ x ∈ l, splitterMatch (stripL x.body) = false ∧ goalMatch x.body = true) →
      splitGo l false = (l, []) := by
  intro l h
  rw [splitGo_no_splitter fun x hx => (h x hx).1]
  rw [List.filter_eq_self.mpr fun x hx => (h x hx).2]

/-- C2: a comment whose trimmed body is a literal `# Review` heading
(case-insensitive) is placed in neither output of `split_sprint_comments`;
on the three-comment scenario (given to the function out of order) the
output is exactly (planning = [goal comment at t1],
review = [reflection comment at t3]). -/
theorem claim2_review_marker_discarded :
    (∀ (comments p r : List Comment) (c : Comment),
        split_sprint_comments comments = some (p, r) →
        splitterMatch (stripL c.body) = true → c ∉ p ∧ c ∉ r) ∧
    split_sprint_comments [cReviewMark, cReflect, cGoal] =
      some ([cGoal], [cReflect]) := by
  constructor
  · intro comments p r c hsplit hc
    simp only [split_sprint_comments] at hsplit
    split at hsplit
    · have h2 := Option.some.inj hsplit
      have hp : p = (splitGo (List.insertionSort cmtLe comments) false).1 := by
        rw [h2]
      have hr2 : r = (splitGo (List.insertionSort cmtLe comments) false).2 := by
        rw [h2]
      subst hp
      subst hr2
      constructor
      · intro hmem
        have := (splitGo_mem (Or.inl hmem)).1
        rw [hc] at this
        cases this
      · intro hmem
        have := (splitGo_mem (Or.inr hmem)).1
        rw [hc] at this
        cases this
    · cases hsplit
  · decide

theorem claim2_witness : cReviewMark ∉ ([cGoal] : List Comment) ∧
    cReviewMark ∉ ([cReflect] : List Comment) :=
  claim2_review_marker_discarded.1 [cReviewMark, cReflect, cGoal] [cGoal]
    [cReflect] cReviewMark (by decide) (by decide)

/-- C3 counterexample: re-running `split_sprint_comments` on its own
already-classified output does not reproduce the pair — the review
comment is dropped because the `# Review` marker is not part of the
output. -/
theorem claim3_counterexample :
    split_sprint_comments [cReviewMark, cReflect, cGoal] =
      some ([cGoal], [cReflect]) ∧
    split_sprint_comments ([cGoal] ++ [cReflect]) ≠
      some ([cGoal], [cReflect]) := by
  decide

/-- C3 (amended): re-running the classifier on the concatenated output
always yields an empty review list (the `# Review` marker was discarded by
the first run), and the full pair is reproduced exactly when the first
run's review output was empty. -/
theorem claim3_idempotent_amended :
    ∀ (comments p r : List Comment),
      split_sprint_comments comments = some (p, r) →
      (∃ p2, split_sprint_comments (p ++ r) = some (p2, [])) ∧
      (r = [] → split_sprint_comments (p ++ r) = some (p, r)) := by
  intro comments p r hsplit
  simp only [split_sprint_comments] at hsplit
  split at hsplit
  case isFalse => cases hsplit
  case isTrue hkeys =>
    have h2 := Option.some.inj hsplit
    have hp : p = (splitGo (List.insertionSort cmtLe comments) false).1 := by
      rw [h2]
    have hr2 : r = (splitGo (List.insertionSort cmtLe comments) false).2 := by
      rw [h2]
    subst hp
    subst hr2
    set sorted := List.insertionSort cmtLe comments with hsorted
    have hmemsort : ∀ x ∈ sorted, x ∈ comments := fun x hx =>
      (List.perm_insertionSort cmtLe comments).subset hx
    have hmem : ∀ x ∈ (splitGo sorted false).1 ++ (splitGo sorted false).2,
        splitterMatch (stripL x.body) = false ∧ x ∈ comments := by
      intro x hx
      rcases List.mem_append.mp hx with hx | hx
      · rcases splitGo_mem (Or.inl hx) with ⟨h1, h2⟩
        exact ⟨h1, hmemsort x h2⟩
      · rcases splitGo_mem (Or.inr hx) with ⟨h1, h2⟩
        exact ⟨h1, hmemsort x h2⟩
    have hkeys2 : checkKeys ((splitGo sorted false).1 ++ (splitGo sorted false).2)
        = true := by
      simp only [checkKeys, List.all_eq_true] at hkeys ⊢
      intro x hx
      exact hkeys x ((hmem x hx).2)
    constructor
    · refine ⟨(List.insertionSort cmtLe
        ((splitGo sorted false).1 ++ (splitGo sorted false).2)).filter
          (fun c => goalMatch c.body), ?_⟩
      simp only [split_sprint_comments, hkeys2, if_pos]
      rw [splitGo_no_splitter]
      intro x hx
      exact (hmem x ((List.perm_insertionSort cmtLe _).subset hx)).1
    · intro hr
      rw [hr, List.append_nil]
      have hsortedp : List.Sorted cmtLe (splitGo sorted false).1 :=
        (List.sorted_insertionSort cmtLe comments).sublist
          (splitGo_fst_sublist sorted false)
      have hkeys3 : checkKeys (splitGo sorted false).1 = true := by
        simp only [checkKeys, List.all_eq_true] at hkeys ⊢
        intro x hx
        exact hkeys x (hmem x (by simp [hx])).2
      simp only [split_sprint_comments, hkeys3, if_pos]
      rw [List.Sorted.insertionSort_eq hsortedp]
      rw [splitGo_all_goal]
      intro x hx
      exact ⟨(hmem x (by simp [hx])).1, splitGo_mem_fst_goal hx⟩

theorem claim3_witness :
    split_sprint_comments ([cGoal] ++ []) = some ([cGoal], []) :=
  (claim3_idempotent_amended [cGoal] [cGoal] [] (by decide)).2 rfl

theorem eatLit_self_append (p r : List Char) : eatLit p (p ++ r) = some r := by
  induction p with
  | nil => rfl
  | cons c tl ih => simp [eatLit, ih]

theorem eatLit_decomp : ∀ {p s r : List Char}, eatLit p s = some r → s = p ++ r := by
  intro p
  induction p with
  | nil => intro s r h; cases h; rfl
  | cons c tl ih =>
    intro s r h
    cases s with
    | nil => cases h
    | cons x xs =>
      simp only [eatLit] at h
      split at h
      next heq => simp [heq, ih h]
      · cases h

theorem run_takeWhile {p : Char → Bool} :
    ∀ {a r : List Char}, (∀ x ∈ a, p x = true) → (∀ x ∈ r.take 1, p x = false) →
      (a ++ r).takeWhile p = a ∧ (a ++ r).dropWhile p = r := by
  intro a
  induction a with
  | nil =>
    intro r _ hr
    cases r with
    | nil => exact ⟨rfl, rfl⟩
    | cons c tl =>
      have hc := hr c (by simp)
      simp [List.takeWhile_cons, List.dropWhile_cons, hc]
  | cons c tl ih =>
    intro r ha hr
    have hc := ha c (by simp)
    have htl := ih (fun x hx => ha x (by simp [hx])) hr
    simp [List.takeWhile_cons, List.dropWhile_cons, hc, htl.1, htl.2]

theorem sprintTitleMatch_iff (t : List Char) :
    sprintTitleMatch t = true ↔
      ∃ a b c rest, (∀ x ∈ a, x.isDigit = true) ∧ a ≠ [] ∧
        (∀ x ∈ b, x.isDigit = true) ∧ b ≠ [] ∧ c ≠ '\n' ∧
        t = "Sprint ".toList ++ a ++ '/' :: b ++ ':' :: ' ' :: c :: rest := by
  constructor
  · intro h
    unfold sprintTitleMatch at h
    split at h
    · cases h
    next r1 heat =>
      have ht := eatLit_decomp heat
      split at h
      · cases h
      next hne =>
        split at h
        · cases h
        next r3 hr2 =>
          have e1 : r1 = r1.takeWhile Char.isDigit ++ '/' :: r3 := by
            conv_lhs => rw [← List.takeWhile_append_dropWhile Char.isDigit r1]
            rw [eatLit_decomp hr2]
            rfl
          split at h
          · cases h
          next hbne =>
            split at h
            · cases h
            · cases h
            next c rest hr4 =>
              have e3 : r3 = r3.takeWhile Char.isDigit ++ ':' :: ' ' :: c :: rest := by
                conv_lhs => rw [← List.takeWhile_append_dropWhile Char.isDigit r3]
                rw [eatLit_decomp hr4]
                rfl
              refine ⟨r1.takeWhile Char.isDigit, r3.takeWhile Char.isDigit,
                c, rest, ?_, ?_, ?_, ?_, ?_, ?_⟩
              · intro x hx; exact List.mem_takeWhile_imp hx
              · simpa [List.isEmpty_iff] using hne
              · intro x hx; exact List.mem_takeWhile_imp hx
              · simpa [List.isEmpty_iff] using hbne
              · exact of_decide_eq_true h
              · conv_lhs => rw [ht, e1, e3]
                simp
  · rintro ⟨a, b, c, rest, ha, hane, hb, hbne, hc, rfl⟩
    unfold sprintTitleMatch
    rw [show "Sprint ".toList ++ a ++ '/' :: b ++ ':' :: ' ' :: c :: rest
        = "Sprint ".toList ++ (a ++ ('/' :: b ++ ':' :: ' ' :: c :: rest)) by simp,
      eatLit_self_append]
    have h1 := run_takeWhile (p := Char.isDigit) ha
      (r := '/' :: b ++ ':' :: ' ' :: c :: rest)
      (fun x hx => by simp at hx; rw [hx]; rfl)
    have h2 := run_takeWhile (p := Char.isDigit) hb
      (r := ':' :: ' ' :: c :: rest)
      (fun x hx => by simp at hx; rw [hx]; rfl)
    rw [show b ++ ':' :: ' ' :: c :: rest = b ++ (':' :: ' ' :: c :: rest) from
      rfl] at h2
    simp only [h1.1, h1.2, List.isEmpty_eq_false.mpr hane, Bool.false_eq_true,
      if_false]
    rw [show ('/' :: b ++ ':' :: ' ' :: c :: rest : List Char)
        = "/".toList ++ (b ++ ':' :: ' ' :: c :: rest) from rfl,
      eatLit_self_append]
    simp only [h2.1, h2.2, List.isEmpty_eq_false.mpr hbne, Bool.false_eq_true,
      if_false]
    rw [show (':' :: ' ' :: c :: rest : List Char)
        = ": ".toList ++ (c :: rest) from rfl,
      eatLit_self_append]
    exact decide_eq_true hc

theorem containsSub_iff_infix (pat : List Char) :
    ∀ s : List Char, containsSub pat s = true ↔ pat <:+: s := by
  intro s
  induction s with
  | nil =>
    simp only [containsSub, List.isEmpty_iff, List.infix_nil]
  | cons c tl ih =>
    simp only [containsSub, Bool.or_eq_true, List.isPrefixOf_iff_prefix, ih,
      List.infix_cons_iff]

theorem find?_decomp {α : Type} {p : α → Bool} :
    ∀ {l : List α} {e : α}, l.find? p = some e →
      ∃ l1 l2, l = l1 ++ e :: l2 ∧ ∀ x ∈ l1, p x = false := by
  intro l
  induction l with
  | nil => intro e h; cases h
  | cons a tl ih =>
    intro e h
    rw [List.find?_cons] at h
    split at h
    next hpa =>
      cases h
      exact ⟨[], tl, rfl, by simp⟩
    next hpa =>
      rcases ih h with ⟨l1, l2, hdec, hfirst⟩
      refine ⟨a :: l1, l2, by simp [hdec], ?_⟩
      intro x hx
      rcases List.mem_cons.mp hx with rfl | hx
      · simpa using hpa
      · exact hfirst x hx

/-- C8 counterexample: an epic whose title prefix-matches the sprint
pattern but, containing a newline, does not exactly (fully) match it, is
nevertheless returned by `list_all_sprints` — the filter is `re.match`,
a prefix match, not a full match. -/
theorem claim8_counterexample :
    list_all_sprints apiNl = .ok [epicNl] ∧
    sprintTitleExactSpec epicNl.title = false := by
  constructor
  · rfl
  · decide

/-- C8 (amended): `list_all_sprints` returns exactly the epics whose title
matches the sprint pattern at the start of the string (`re.match`
semantics): literal `Sprint `, one or more digits, `/`, one or more
digits, `: `, then at least one non-newline character; anything after that
character (including newlines) is unconstrained.  Remote order is
preserved (it is a `filter`). -/
theorem claim8_sprint_filter_amended :
    (∀ (eps : Type) (api : Api eps) (epics : List Epic),
        api.listEpics = .ok epics →
        list_all_sprints api =
          .ok (epics.filter fun e => sprintTitleMatch e.title)) ∧
    (∀ t : List Char, sprintTitleMatch t = true ↔
        ∃ a b c rest, (∀ x ∈ a, x.isDigit = true) ∧ a ≠ [] ∧
          (∀ x ∈ b, x.isDigit = true) ∧ b ≠ [] ∧ c ≠ '\n' ∧
          t = "Sprint ".toList ++ a ++ '/' :: b ++ ':' :: ' ' :: c :: rest) := by
  constructor
  · intro eps api epics h
    simp [list_all_sprints, h]
  · exact sprintTitleMatch_iff

theorem claim8_witness :
    list_all_sprints apiFind =
      .ok ([epicNl, sprintA].filter fun e => sprintTitleMatch e.title) ∧
    sprintTitleMatch sprintA.title = true :=
  ⟨claim8_sprint_filter_amended.1 Unit apiFind [epicNl, sprintA] rfl,
   (claim8_sprint_filter_amended.2 sprintA.title).mpr
     ⟨['1'], ['3'], 'd', "emo sprint".toList, by decide, by decide, by decide,
      by decide, by decide, by decide⟩⟩

/-- C10: `find_sprint_epic_by_name` returns the first epic (in remote
order) whose title starts with the literal `Sprint` and contains the query
as a substring, and `None` when no epic satisfies both. -/
theorem claim10_find_sprint_epic :
    ∀ (eps : Type) (api : Api eps) (q : List Char) (epics : List Epic),
      api.listEpics = .ok epics →
      (find_sprint_epic_by_name api q =
        .ok (epics.find? fun epic =>
          "Sprint".toList.isPrefixOf epic.title && containsSub q epic.title)) ∧
      ((epics.find? fun epic =>
          "Sprint".toList.isPrefixOf epic.title && containsSub q epic.title)
            = none ↔
        ∀ e ∈ epics, ¬("Sprint".toList <+: e.title ∧ q <:+: e.title)) ∧
      (∀ e, (epics.find? fun epic =>
          "Sprint".toList.isPrefixOf epic.title && containsSub q epic.title)
            = some e →
        ("Sprint".toList <+: e.title ∧ q <:+: e.title) ∧
        ∃ l1 l2, epics = l1 ++ e :: l2 ∧
          ∀ x ∈ l1, ¬("Sprint".toList <+: x.title ∧ q <:+: x.title)) := by
  intro eps api q epics h
  have hpred : ∀ e : Epic,
      ("Sprint".toList.isPrefixOf e.title && containsSub q e.title) = true ↔
      ("Sprint".toList <+: e.title ∧ q <:+: e.title) := by
    intro e
    rw [Bool.and_eq_true, List.isPrefixOf_iff_prefix, containsSub_iff_infix]
  refine ⟨by simp [find_sprint_epic_by_name, h], ?_, ?_⟩
  · rw [List.find?_eq_none]
    constructor
    · intro hall e he hpe
      exact absurd ((hpred e).mpr hpe) (by simpa using hall e he)
    · intro hall e he
      simp only [Bool.not_eq_true]
      rw [← Bool.not_eq_true, hpred e]
      exact hall e he
  · intro e hfind
    have hp := List.find?_some hfind
    refine ⟨(hpred e).mp (by simpa using hp), ?_⟩
    rcases find?_decomp hfind with ⟨l1, l2, hdec, hfirst⟩
    refine ⟨l1, l2, hdec, ?_⟩
    intro x hx hcontra
    have hb := (hpred x).mpr hcontra
    rw [hfirst x hx] at hb
    cases hb

theorem claim10_witness :
    find_sprint_epic_by_name apiFind "1/3".toList = .ok (some sprintA) := by
  have h := (claim10_find_sprint_epic Unit apiFind "1/3".toList
    [epicNl, sprintA] rfl).1
  rw [h]
  rfl

theorem metricsLoop_error {eps : Type} (api : Api eps) :
    ∀ l : List Epic,
      (∃ s ∈ l, ∃ e, calculate_sprint_metrics api s = .error e) →
      ∃ e, metricsLoop api l = .error e := by
  intro l
  induction l with
  | nil => rintro ⟨s, hs, _⟩; cases hs
  | cons hd tl ih =>
    rintro ⟨s, hs, e, hse⟩
    cases hcalc : calculate_sprint_metrics api hd with
    | error e2 => exact ⟨e2, by simp [metricsLoop, hcalc]⟩
    | ok m =>
      rcases List.mem_cons.mp hs with rfl | hs2
      · rw [hcalc] at hse; cases hse
      · rcases ih ⟨s, hs2, e, hse⟩ with ⟨e3, hloop⟩
        exact ⟨e3, by simp [metricsLoop, hcalc, hloop]⟩

theorem reviewEffLoop_error {eps : Type} (api : Api eps) :
    ∀ (l : List Mr) (td mwd : Nat),
      (∃ mr ∈ l, ∃ e, fetch_mr_comments api mr = .error e) →
      ∃ e, reviewEffLoop api l td mwd = .error e := by
  intro l
  induction l with
  | nil =>
    rintro td mwd ⟨mr, hm, _⟩
    cases hm
  | cons hd tl ih =>
    rintro td mwd ⟨mr, hm, e, hme⟩
    cases hf : fetch_mr_comments api hd with
    | error e2 => exact ⟨e2, by simp [reviewEffLoop, hf]⟩
    | ok comments =>
      rcases List.mem_cons.mp hm with rfl | hm2
      · rw [hf] at hme
        cases hme
      · simp only [reviewEffLoop, hf]
        split
        · exact ih td mwd ⟨mr, hm2, e, hme⟩
        · exact ih (td + comments.length) (mwd + 1) ⟨mr, hm2, e, hme⟩

theorem reviewEffLoop_ok {eps : Type} (api : Api eps) :
    ∀ (l : List Mr) (td mwd : Nat),
      (∀ mr ∈ l, ∃ ds, api.listDiscussions mr = .ok ds) →
      ∃ v, reviewEffLoop api l td mwd = .ok v := by
  intro l
  induction l with
  | nil => intro td mwd _; exact ⟨(td, mwd), rfl⟩
  | cons hd tl ih =>
    intro td mwd h
    obtain ⟨ds, hds⟩ := h hd (by simp)
    have hf : fetch_mr_comments api hd =
        .ok ((ds.map fun notes => notes.filter fun n => !n.system).flatten) := by
      simp [fetch_mr_comments, hds]
    simp only [reviewEffLoop, hf]
    split
    · exact ih td mwd fun mr hm => h mr (by simp [hm])
    · exact ih _ _ fun mr hm => h mr (by simp [hm])

theorem collabLoop_ok {eps : Type} (api : Api eps) :
    ∀ (l : List Mr) (s : Finset Nat) (tp td : Nat),
      (∀ mr ∈ l, ∃ ds, api.listDiscussions mr = .ok ds) →
      ∃ v, collabLoop api l s tp td = .ok v := by
  intro l
  induction l with
  | nil => intro s tp td _; exact ⟨(s, tp, td), rfl⟩
  | cons hd tl ih =>
    intro s tp td h
    obtain ⟨ds, hds⟩ := h hd (by simp)
    have hf : fetch_mr_comments api hd =
        .ok ((ds.map fun notes => notes.filter fun n => !n.system).flatten) := by
      simp [fetch_mr_comments, hds]
    simp only [collabLoop, hf]
    exact ih _ _ _ fun mr hm => h mr (by simp [hm])

theorem plannedLoop_error {eps : Type} (api : Api eps) :
    ∀ (infos : List (List Char × List Char)) (n : Nat),
      (∃ info ∈ infos, ∃ e, api.getIssueState info.1 info.2 = .error e) →
      ∃ e, plannedLoop api infos n = .error e := by
  intro infos
  induction infos with
  | nil =>
    rintro n ⟨info, hm, _⟩
    cases hm
  | cons hd tl ih =>
    obtain ⟨path, iid⟩ := hd
    rintro n ⟨info, hm, e, hme⟩
    cases hg : api.getIssueState path iid with
    | error e2 => exact ⟨e2, by simp [plannedLoop, hg]⟩
    | ok st =>
      rcases List.mem_cons.mp hm with rfl | hm2
      · rw [hg] at hme
        cases hme
      · simp only [plannedLoop, hg]
        split
        · exact ih (n + 1) ⟨info, hm2, e, hme⟩
        · exact ih n ⟨info, hm2, e, hme⟩

/-- C9: any failing remote fetch performed during a sprint's metric
computation — the epic-notes listing, either merge-request listing, the
discussions fetch of any active MR, or the state lookup of any referenced
issue — makes `calculate_sprint_metrics` return that error and no record;
and a failing epics listing, or any listed sprint whose metrics computation
errors, makes `get_metrics_for_all_sprints` abort with an error and return
no partial list. -/
theorem claim9_fail_fast :
    (∀ (eps : Type) (api : Api eps) (sprint : Epic) (e : eps),
        api.listEpicNotes sprint = .error e →
        calculate_sprint_metrics api sprint = .error (.api e)) ∧
    (∀ (eps : Type) (api : Api eps) (sprint : Epic) (cs : List Comment)
       (pr : List Comment × List Comment) (e : eps),
        api.listEpicNotes sprint = .ok cs →
        split_sprint_comments cs = some pr →
        api.listCreatedMrs sprint = .error e →
        calculate_sprint_metrics api sprint = .error (.api e)) ∧
    (∀ (eps : Type) (api : Api eps) (sprint : Epic) (cs : List Comment)
       (pr : List Comment × List Comment) (created : List Mr) (e : eps),
        api.listEpicNotes sprint = .ok cs →
        split_sprint_comments cs = some pr →
        api.listCreatedMrs sprint = .ok created →
        api.listActiveMrs sprint = .error e →
        calculate_sprint_metrics api sprint = .error (.api e)) ∧
    (∀ (eps : Type) (api : Api eps) (sprint : Epic) (cs : List Comment)
       (pr : List Comment × List Comment) (created ms : List Mr),
        api.listEpicNotes sprint = .ok cs →
        split_sprint_comments cs = some pr →
        api.listCreatedMrs sprint = .ok created →
        api.listActiveMrs sprint = .ok ms →
        (∃ m ∈ ms, ∃ e, api.listDiscussions m = .error e) →
        ∃ e, calculate_sprint_metrics api sprint = .error (.api e)) ∧
    (∀ (eps : Type) (api : Api eps) (sprint : Epic) (cs : List Comment)
       (p r : List Comment) (created ms : List Mr) (q : ℚ),
        api.listEpicNotes sprint = .ok cs →
        split_sprint_comments cs = some (p, r) →
        api.listCreatedMrs sprint = .ok created →
        api.listActiveMrs sprint = .ok ms →
        (∀ m ∈ ms, ∃ ds, api.listDiscussions m = .ok ds) →
        calculate_average_time_to_merge ms = some q →
        (∃ info ∈ extract_issue_info_from_comments p,
          ∃ e, api.getIssueState info.1 info.2 = .error e) →
        ∃ e, calculate_sprint_metrics api sprint = .error (.api e)) ∧
    (∀ (eps : Type) (api : Api eps) (e : eps),
        api.listEpics = .error e →
        get_metrics_for_all_sprints api = .error (.api e)) ∧
    (∀ (eps : Type) (api : Api eps) (epics : List Epic),
        api.listEpics = .ok epics →
        (∃ s ∈ epics.filter fun e2 => sprintTitleMatch e2.title,
           ∃ e, calculate_sprint_metrics api s = .error e) →
        ∃ e, get_metrics_for_all_sprints api = .error e) := by
  refine ⟨?_, ?_, ?_, ?_, ?_, ?_, ?_⟩
  · intro eps api sprint e h
    simp [calculate_sprint_metrics, fetch_epic_comments, h, liftApi]
  · intro eps api sprint cs pr e h1 h2 h3
    obtain ⟨p, r⟩ := pr
    simp [calculate_sprint_metrics, fetch_epic_comments, h1, liftApi, h2,
      liftParse, fetch_created_mrs_in_sprint, h3]
  · intro eps api sprint cs pr created e h1 h2 h3 h4
    obtain ⟨p, r⟩ := pr
    simp [calculate_sprint_metrics, fetch_epic_comments, h1, liftApi, h2,
      liftParse, fetch_created_mrs_in_sprint, h3, fetch_active_mrs_in_sprint,
      h4]
  · intro eps api sprint cs pr created ms h1 h2 h3 h4 hex
    obtain ⟨p, r⟩ := pr
    obtain ⟨m, hm, e, hme⟩ := hex
    obtain ⟨e0, hloop⟩ := reviewEffLoop_error api ms 0 0
      ⟨m, hm, e, by simp [fetch_mr_comments, hme]⟩
    have heff : calculate_code_review_efficiency api ms = .error e0 := by
      simp [calculate_code_review_efficiency, hloop]
    refine ⟨e0, ?_⟩
    simp [calculate_sprint_metrics, fetch_epic_comments, h1, liftApi, h2,
      liftParse, fetch_created_mrs_in_sprint, h3, fetch_active_mrs_in_sprint,
      h4, heff]
  · intro eps api sprint cs p r created ms q h1 h2 h3 h4 hall havg hex
    obtain ⟨⟨td0, mwd0⟩, hloop⟩ := reviewEffLoop_ok api ms 0 0 hall
    have heff : ∃ pr2 : ℚ × ℚ,
        calculate_code_review_efficiency api ms = .ok pr2 := by
      simp only [calculate_code_review_efficiency, hloop]
      split
      · exact ⟨(0, 0), rfl⟩
      · exact ⟨_, rfl⟩
    obtain ⟨⟨avg1, pct1⟩, heff⟩ := heff
    obtain ⟨⟨uc0, tp0, td1⟩, hcol⟩ := collabLoop_ok api ms ∅ 0 0 hall
    have hcollab : calculate_mr_collaboration_score api ms =
        .ok (uc0.card, if td1 = 0 then 0 else (tp0 : ℚ) / (td1 : ℚ)) := by
      simp [calculate_mr_collaboration_score, hcol]
    obtain ⟨e1, hplan⟩ := plannedLoop_error api
      (extract_issue_info_from_comments p) 0 hex
    have hrate : calculate_planned_issue_completion_rate api p = .error e1 := by
      simp [calculate_planned_issue_completion_rate, hplan]
    rcases hscope : calculate_scope_change_rate p r with ⟨n0, rate0⟩
    refine ⟨e1, ?_⟩
    simp [calculate_sprint_metrics, fetch_epic_comments, h1, liftApi, h2,
      liftParse, fetch_created_mrs_in_sprint, h3, fetch_active_mrs_in_sprint,
      h4, heff, hscope, hcollab, havg, hrate]
  · intro eps api e h
    simp [get_metrics_for_all_sprints, list_all_sprints, h]
  · intro eps api epics h hex
    rcases metricsLoop_error api _ hex with ⟨e, hloop⟩
    exact ⟨e, by simp [get_metrics_for_all_sprints, list_all_sprints, h, hloop]⟩

theorem claim9_witness :
    calculate_sprint_metrics apiNotesFail sprintA = .error (.api 3) ∧
    (∃ e, calculate_sprint_metrics apiFail sprintA = .error (.api e)) ∧
    (∃ e, calculate_sprint_metrics apiIssueFail sprintA = .error (.api e)) ∧
    (∃ e, get_metrics_for_all_sprints apiFail = .error e) := by
  have h4 := claim9_fail_fast.2.2.2.1 Nat apiFail sprintA [] ([], []) []
    [mrOpened] rfl (by decide) rfl rfl
    ⟨mrOpened, by decide, 7, rfl⟩
  refine ⟨claim9_fail_fast.1 Nat apiNotesFail sprintA 3 rfl, h4, ?_, ?_⟩
  · exact claim9_fail_fast.2.2.2.2.1 Nat apiIssueFail sprintA [cGoalUrl]
      [cGoalUrl] [] [] [] 0 rfl (by decide) rfl rfl (by simp) rfl
      ⟨("g/s/p1".toList, "1".toList), by decide, 9, rfl⟩
  · obtain ⟨e0, he0⟩ := h4
    exact claim9_fail_fast.2.2.2.2.2.2 Nat apiFail [sprintA] rfl
      ⟨sprintA, by decide, .api e0, he0⟩

theorem grabSeg_run {a r : List Char} (ha : ∀ x ∈ a, wordDash x = true)
    (hane : a ≠ []) : grabSeg (a ++ '/' :: r) = some (a, r) := by
  have hrun := run_takeWhile (p := wordDash) ha (r := '/' :: r)
    (fun x hx => by simp at hx; rw [hx]; rfl)
  unfold grabSeg
  rw [hrun.1, hrun.2, if_neg (by simp [List.isEmpty_eq_false.mpr hane])]
  rw [show ('/' :: r : List Char) = "/".toList ++ r from rfl, eatLit_self_append]

theorem matchIssueAt_coreK {a b c d kd post : List Char}
    (hk : kd = "issues".toList ∨ kd = "work_items".toList)
    (ha : ∀ x ∈ a, wordDash x = true) (hane : a ≠ [])
    (hb : ∀ x ∈ b, wordDash x = true) (hbne : b ≠ [])
    (hc : ∀ x ∈ c, wordDash x = true) (hcne : c ≠ [])
    (hd : ∀ x ∈ d, x.isDigit = true) (hdne : d ≠ [])
    (hpost : ∀ x ∈ post.take 1, x.isDigit = false) :
    matchIssueAt ("https://gitlab.com/".toList
        ++ (a ++ '/' :: (b ++ '/' :: (c
          ++ ('/' :: '-' :: '/' :: (kd ++ '/' :: (d ++ post))))))) =
      some ((a ++ '/' :: b ++ '/' :: c ++ "/-/".toList ++ kd ++ '/' :: d,
             kd, d), post) := by
  unfold matchIssueAt
  rw [show "https://gitlab.com/".toList
        ++ (a ++ '/' :: (b ++ '/' :: (c
          ++ ('/' :: '-' :: '/' :: (kd ++ '/' :: (d ++ post))))))
      = "https://gitlab".toList ++ ('.' :: ("com/".toList
        ++ (a ++ '/' :: (b ++ '/' :: (c
          ++ ('/' :: '-' :: '/' :: (kd ++ '/' :: (d ++ post))))))))
      by simp, eatLit_self_append]
  dsimp only
  rw [if_neg (by decide : ¬('.' : Char) = '\n'), eatLit_self_append]
  dsimp only
  rw [grabSeg_run ha hane]
  dsimp only
  rw [grabSeg_run hb hbne]
  dsimp only
  have hcrun := run_takeWhile (p := wordDash) hc
    (r := '/' :: '-' :: '/' :: (kd ++ '/' :: (d ++ post)))
    (fun x hx => by simp at hx; rw [hx]; rfl)
  rw [hcrun.1, hcrun.2, if_neg (by simp [List.isEmpty_eq_false.mpr hcne])]
  rw [show ('/' :: '-' :: '/' :: (kd ++ '/' :: (d ++ post)) : List Char)
      = "/-/".toList ++ (kd ++ '/' :: (d ++ post)) from rfl,
    eatLit_self_append]
  dsimp only
  rw [show eatKind (kd ++ '/' :: (d ++ post)) = some (kd, d ++ post) by
    rcases hk with rfl | rfl <;> rfl]
  dsimp only
  have hdrun := run_takeWhile (p := Char.isDigit) hd (r := post) hpost
  rw [hdrun.1, hdrun.2, if_neg (by simp [List.isEmpty_eq_false.mpr hdne])]

theorem splitSlash_no_slash :
    ∀ {x : List Char}, (∀ ch ∈ x, ch ≠ '/') → splitSlash x = [x] := by
  intro x
  induction x with
  | nil => intro _; rfl
  | cons c tl ih =>
    intro h
    have hc : ¬c = '/' := h c (by simp)
    simp only [splitSlash, if_neg hc, ih fun ch hch => h ch (by simp [hch])]

theorem splitSlash_append :
    ∀ {x : List Char} {r : List Char}, (∀ ch ∈ x, ch ≠ '/') →
      splitSlash (x ++ '/' :: r) = x :: splitSlash r := by
  intro x
  induction x with
  | nil =>
    intro r _
    simp [splitSlash]
  | cons c tl ih =>
    intro r h
    have hc : ¬c = '/' := h c (by simp)
    rw [List.cons_append]
    simp only [splitSlash, if_neg hc, ih fun ch hch => h ch (by simp [hch])]

theorem wordDash_ne_slash {ch : Char} (h : wordDash ch = true) : ch ≠ '/' := by
  intro he
  rw [he] at h
  simp [wordDash] at h

theorem isDigit_ne_slash {ch : Char} (h : ch.isDigit = true) : ch ≠ '/' := by
  intro he
  rw [he] at h
  simp at h

theorem matchIssueAt_none_of_not_https {s : List Char}
    (h : ¬("https".toList <+: s)) : matchIssueAt s = none := by
  cases heat : eatLit "https://gitlab".toList s with
  | none =>
    unfold matchIssueAt
    rw [heat]
  | some r =>
    exact absurd ⟨"://gitlab".toList ++ r, by rw [eatLit_decomp heat]; rfl⟩ h

theorem https_drop_not_starts {s : List Char} (hs : s.head? = some 'h') :
    ∀ k, 1 ≤ k → k ≤ 4 → ¬("https".toList.drop k <+: s) := by
  intro k h1 h4 hcontra
  cases s with
  | nil => cases hs
  | cons c tl =>
    have hc : c = 'h' := by simpa using hs
    subst hc
    rcases hcontra with ⟨t, ht⟩
    rw [show "https".toList = ['h', 't', 't', 'p', 's'] from rfl] at ht
    rcases (by omega : k = 1 ∨ k = 2 ∨ k = 3 ∨ k = 4) with rfl | rfl | rfl | rfl <;>
      simp at ht

theorem findallIssue_no_https :
    ∀ {s : List Char}, containsSub "https".toList s = false →
      findallIssue s = [] := by
  intro s
  induction s with
  | nil => intro _; rfl
  | cons c tl ih =>
    intro h
    simp only [containsSub, Bool.or_eq_false_iff] at h
    rw [findallIssue_skip (matchIssueAt_none_of_not_https (by
      rw [← List.isPrefixOf_iff_prefix, h.1]
      simp))]
    exact ih h.2

theorem findallIssue_append_no_https :
    ∀ {pre : List Char} {s : List Char},
      containsSub "https".toList pre = false →
      (∀ k, 1 ≤ k → k ≤ 4 → ¬("https".toList.drop k <+: s)) →
      findallIssue (pre ++ s) = findallIssue s := by
  intro pre
  induction pre with
  | nil => intro s _ _; rfl
  | cons c tl ih =>
    intro s hpre hs
    simp only [containsSub, Bool.or_eq_false_iff] at hpre
    have hnm : ¬("https".toList <+: c :: (tl ++ s)) := by
      intro hcontra
      by_cases hlen : ("https".toList).length ≤ (c :: tl).length
      · have hfit : "https".toList <+: (c :: tl) := by
          rw [List.prefix_iff_eq_take] at hcontra ⊢
          rwa [show (c :: (tl ++ s) : List Char) = (c :: tl) ++ s from rfl,
            List.take_append_of_le_length hlen] at hcontra
        rw [← List.isPrefixOf_iff_prefix, hpre.1] at hfit
        cases hfit
      · push_neg at hlen
        rcases hcontra with ⟨t, ht⟩
        have hdrop := congrArg (List.drop (c :: tl).length) ht
        rw [show (c :: (tl ++ s) : List Char) = (c :: tl) ++ s from rfl,
          List.drop_left] at hdrop
        rw [List.drop_append_of_le_length (Nat.le_of_lt hlen)] at hdrop
        have h5 : ("https".toList).length = 5 := rfl
        exact hs (c :: tl).length (by simp) (by omega) ⟨t, hdrop⟩
    rw [List.cons_append, findallIssue_skip (matchIssueAt_none_of_not_https hnm)]
    exact ih hpre.2 hs

theorem urlBody_take1_nondigit {f : List Char}
    (hf : ∀ x ∈ f.take 1, x.isDigit = false) :
    ∀ rest : List (UrlRef × List Char),
      ∀ x ∈ (urlBody f rest).take 1, x.isDigit = false := by
  intro rest
  cases rest with
  | nil => exact hf
  | cons p r2 =>
    obtain ⟨u, f2⟩ := p
    cases f with
    | nil =>
      intro x hx
      simp only [urlBody, List.nil_append] at hx
      rw [show (urlCore u ++ urlBody f2 r2).take 1 = ['h'] from rfl] at hx
      simp at hx
      rw [hx]
      rfl
    | cons ch ft =>
      intro x hx
      simp only [urlBody] at hx
      rw [show ((ch :: ft) ++ urlCore u ++ urlBody f2 r2).take 1 = [ch]
        from rfl] at hx
      simp at hx
      rw [hx]
      exact hf ch (by simp)

theorem url_group_path {a b c kd d : List Char}
    (hk : kd = "issues".toList ∨ kd = "work_items".toList)
    (ha : ∀ x ∈ a, wordDash x = true)
    (hb : ∀ x ∈ b, wordDash x = true)
    (hc : ∀ x ∈ c, wordDash x = true)
    (hd : ∀ x ∈ d, x.isDigit = true) :
    joinSlash ((splitSlash (a ++ '/' :: b ++ '/' :: c ++ "/-/".toList
        ++ kd ++ '/' :: d)).take
      ((splitSlash (a ++ '/' :: b ++ '/' :: c ++ "/-/".toList
        ++ kd ++ '/' :: d)).length - 3)) =
      a ++ '/' :: (b ++ '/' :: c) := by
  have hsplit : splitSlash (a ++ '/' :: b ++ '/' :: c ++ "/-/".toList
      ++ kd ++ '/' :: d) = [a, b, c, ['-'], kd, d] := by
    rw [show a ++ '/' :: b ++ '/' :: c ++ "/-/".toList ++ kd ++ '/' :: d
        = a ++ '/' :: (b ++ '/' :: (c ++ '/' :: ('-' :: '/'
          :: (kd ++ '/' :: d)))) by simp]
    rw [splitSlash_append fun ch hch => wordDash_ne_slash (ha ch hch)]
    rw [splitSlash_append fun ch hch => wordDash_ne_slash (hb ch hch)]
    rw [splitSlash_append fun ch hch => wordDash_ne_slash (hc ch hch)]
    rw [show ('-' :: '/' :: (kd ++ '/' :: d) : List Char)
        = ['-'] ++ '/' :: (kd ++ '/' :: d) from rfl]
    rw [splitSlash_append (by intro ch hch; simp at hch; rw [hch]; decide)]
    rw [splitSlash_append (by rcases hk with rfl | rfl <;> decide)]
    rw [splitSlash_no_slash fun ch hch => isDigit_ne_slash (hd ch hch)]
  rw [hsplit]
  simp [joinSlash, List.intercalate, List.intersperse]

theorem findallIssue_urlBody :
    ∀ (chunks : List (UrlRef × List Char)) (f0 : List Char),
      containsSub "https".toList f0 = false →
      (∀ p ∈ chunks,
        (p.1.kind = "issues".toList ∨ p.1.kind = "work_items".toList) ∧
        (∀ x ∈ p.1.seg1, wordDash x = true) ∧ p.1.seg1 ≠ [] ∧
        (∀ x ∈ p.1.seg2, wordDash x = true) ∧ p.1.seg2 ≠ [] ∧
        (∀ x ∈ p.1.seg3, wordDash x = true) ∧ p.1.seg3 ≠ [] ∧
        (∀ x ∈ p.1.issue_id, x.isDigit = true) ∧ p.1.issue_id ≠ [] ∧
        containsSub "https".toList p.2 = false ∧
        (∀ x ∈ p.2.take 1, x.isDigit = false)) →
      findallIssue (urlBody f0 chunks) =
        chunks.map fun p =>
          (p.1.seg1 ++ '/' :: p.1.seg2 ++ '/' :: p.1.seg3 ++ "/-/".toList
            ++ p.1.kind ++ '/' :: p.1.issue_id, p.1.kind, p.1.issue_id) := by
  intro chunks
  induction chunks with
  | nil =>
    intro f0 hf0 _
    exact findallIssue_no_https hf0
  | cons p rest ih =>
    obtain ⟨u, f⟩ := p
    intro f0 hf0 hok
    obtain ⟨hk, h1, h1n, h2, h2n, h3, h3n, hid, hidn, hfc, hfd⟩ :=
      hok (u, f) (by simp)
    simp only [urlBody]
    rw [show f0 ++ urlCore u ++ urlBody f rest
        = f0 ++ (urlCore u ++ urlBody f rest) by simp]
    rw [findallIssue_append_no_https hf0 (https_drop_not_starts
      (show (urlCore u ++ urlBody f rest).head? = some 'h' from rfl))]
    rw [show urlCore u ++ urlBody f rest
        = "https://gitlab.com/".toList
          ++ (u.seg1 ++ '/' :: (u.seg2 ++ '/' :: (u.seg3
            ++ ('/' :: '-' :: '/' :: (u.kind ++ '/'
              :: (u.issue_id ++ urlBody f rest)))))) by simp [urlCore]]
    rw [findallIssue_match (matchIssueAt_coreK hk h1 h1n h2 h2n h3 h3n hid hidn
      (urlBody_take1_nondigit hfd rest))]
    rw [ih f hfc fun q hq => hok q (by simp [hq])]
    simp

/-- C1 counterexample: the spec's example body, whose URL host is
`gitlab.example.com`, extracts nothing — the code's pattern hard-codes the
host shape `gitlab<any char>com` — and a `gitlab.com` URL whose namespace
path has four segments also extracts nothing, though the claim promises
the pair with the trailing 3 segments dropped in both cases. -/
theorem claim1_counterexample :
    extract_issue_info_from_comments
      [⟨⟨"dev".toList⟩,
        "see https://gitlab.example.com/group/sub/proj/-/issues/42".toList,
        "2024-05-01T10:00:00.000Z".toList⟩] = [] ∧
    extract_issue_info_from_comments
      [⟨⟨"dev".toList⟩,
        "see https://gitlab.com/g1/g2/g3/g4/-/issues/42".toList,
        "2024-05-01T10:00:00.000Z".toList⟩] = [] := by
  constructor
  · decide
  · decide

/-- C1 (amended): for every comment whose body is filler text interleaved
with any number of URLs of the form
`https: / / gitlab.com / <a> / <b> / <c> / - / (issues|work_items) / <id>`
(written with spaces around the slashes here; host fixed to `gitlab.com`,
exactly three word-or-dash path segments, a nonempty numeric id; each
filler merely contains no occurrence of the substring `https` and does not
begin with a digit when it follows an id), issue-reference extraction
yields, in order and with duplicates preserved, one pair per URL —
(the matched path with its trailing 3 segments dropped, issue id).  In
particular the body `see https: / / gitlab.com / group / sub / proj / - /
issues / 42` (spaces added here only) yields `("group/sub/proj", "42")`,
and a body with the same `work_items` URL twice yields its pair twice. -/
theorem claim1_extract_amended :
    (∀ (author ts f0 : List Char) (chunks : List (UrlRef × List Char)),
        containsSub "https".toList f0 = false →
        (∀ p ∈ chunks,
          (p.1.kind = "issues".toList ∨ p.1.kind = "work_items".toList) ∧
          (∀ x ∈ p.1.seg1, wordDash x = true) ∧ p.1.seg1 ≠ [] ∧
          (∀ x ∈ p.1.seg2, wordDash x = true) ∧ p.1.seg2 ≠ [] ∧
          (∀ x ∈ p.1.seg3, wordDash x = true) ∧ p.1.seg3 ≠ [] ∧
          (∀ x ∈ p.1.issue_id, x.isDigit = true) ∧ p.1.issue_id ≠ [] ∧
          containsSub "https".toList p.2 = false ∧
          (∀ x ∈ p.2.take 1, x.isDigit = false)) →
        extract_issue_info_from_comments [⟨⟨author⟩, urlBody f0 chunks, ts⟩] =
          chunks.map fun p =>
            (p.1.seg1 ++ '/' :: (p.1.seg2 ++ '/' :: p.1.seg3), p.1.issue_id)) ∧
    extract_issue_info_from_comments
      [⟨⟨"dev".toList⟩,
        "see https://gitlab.com/group/sub/proj/-/issues/42".toList,
        "2024-05-01T10:00:00.000Z".toList⟩] =
      [("group/sub/proj".toList, "42".toList)] ∧
    extract_issue_info_from_comments
      [⟨⟨"dev".toList⟩,
        ("see https://gitlab.com/g/s/p1/-/work_items/5 and "
          ++ "https://gitlab.com/g/s/p1/-/work_items/5").toList,
        "2024-05-01T10:00:00.000Z".toList⟩] =
      [("g/s/p1".toList, "5".toList), ("g/s/p1".toList, "5".toList)] := by
  refine ⟨?_, by decide, by decide⟩
  intro author ts f0 chunks hf0 hok
  simp only [extract_issue_info_from_comments, List.map_cons, List.map_nil,
    List.flatten, List.append_nil]
  rw [findallIssue_urlBody chunks f0 hf0 hok, List.map_map]
  refine List.map_congr_left ?_
  intro p hp
  obtain ⟨hk, h1, _, h2, _, h3, _, hid, _, _, _⟩ := hok p hp
  simp only [Function.comp]
  rw [url_group_path hk h1 h2 h3 hid]

theorem claim1_witness :
    extract_issue_info_from_comments
      [⟨⟨"dev".toList⟩,
        urlBody "check ".toList
          [(⟨"issues".toList, "team".toList, "sub".toList, "proj2".toList,
             "7".toList⟩, " and ".toList),
           (⟨"work_items".toList, "team".toList, "sub".toList, "proj2".toList,
             "7".toList⟩, [])],
        "2024-05-01T10:00:00.000Z".toList⟩] =
      [("team/sub/proj2".toList, "7".toList),
       ("team/sub/proj2".toList, "7".toList)] :=
  (claim1_extract_amended.1 "dev".toList "2024-05-01T10:00:00.000Z".toList
    "check ".toList
    [(⟨"issues".toList, "team".toList, "sub".toList, "proj2".toList,
       "7".toList⟩, " and ".toList),
     (⟨"work_items".toList, "team".toList, "sub".toList, "proj2".toList,
       "7".toList⟩, [])]
    (by decide) (by decide)).trans (by decide)

end GitLabSprintHelper
